import Mathlib

/-!
# Verification of the LOBSimulater matching engine and backtester

This file gives a shallow embedding, in Lean 4, of the core of the
LOBSimulater repository and proves (or refutes) a set of claims about it.

Two distinct order-book implementations exist in the repository:

* the "fast" book of `include/lob/order_book.hpp` + `src/order_book.cpp`
  (intrusive doubly-linked FIFO queues inside `PriceLevel`, `std::map`
  price levels, `addOrder`/`modifyOrder`/`cancelOrder`/
  `processMarketOrder`/`matchOrders`), embedded below in namespace `lob`;
* the "portable" book of the top-level `order_book.hpp` +
  `signals.hpp` (`std::shared_ptr<Order>` vectors inside `Level`,
  `BookSide` with a sorted price cache, and the `Signals` analytics
  class), embedded below in namespace `lobq`.

Modelling conventions, applied throughout:

* machine integers are modelled as unbounded `Nat`/`Int`; the C++ types
  are `uint32_t`/`uint64_t` quantities and `int64_t` prices, and none of
  the properties proven here exercises wrap-around, so overflow is not
  modelled;
* the order map `orders_` of the fast book is represented implicitly:
  the C++ code keeps it in exact correspondence with the set of orders
  linked into price levels (every insertion/removal updates both), so
  the model derives "membership in the order map" from the level queues
  (`ordersOf`/`containsId` below);
* `std::map<Price, unique_ptr<PriceLevel>>` sides are modelled as lists
  of levels sorted best-price-first (descending for bids, ascending for
  asks), matching iteration order of the C++ maps;
* wall-clock performance metrics (`metrics_`, latency timers) and the
  lazily recomputed best-price cache are not modelled: the cache is
  invalidated after every mutating operation, so queries always
  recompute from the level maps, which is what `getBestBid`/`getBestAsk`
  below do;
* `double` arithmetic at the portfolio boundary is modelled with `ℚ`
  (the code divides integer ticks by 100 and forms linear combinations).
-/

namespace lob

/-- `Side` from `include/lob/order_book.hpp`. -/
inductive Side where
  | BID
  | ASK
deriving DecidableEq, Repr

/-- `Order` from `include/lob/order_book.hpp`.  The intrusive
`next`/`prev`/`level` pointers are represented by the order's position
inside its level's queue; `type`, `tif` and `participant_id` are never
read by the book operations and are omitted. -/
structure Order where
  id : Nat
  price : Int
  quantity : Nat
  remaining_quantity : Nat
  side : Side
  timestamp : Nat
deriving DecidableEq, Repr

/-- `Order::isFilled`. -/
def Order.isFilled (o : Order) : Bool := o.remaining_quantity = 0

/-- `PriceLevel` from `include/lob/order_book.hpp`: a FIFO queue of
orders (head of the list = `head_` = oldest) plus the stored aggregates
`total_quantity` and `order_count`. -/
structure PriceLevel where
  price : Int
  side : Side
  total_quantity : Nat
  order_count : Nat
  orders : List Order
deriving DecidableEq, Repr

/-- `PriceLevel::addOrder`: append at the tail, add the order's
remaining quantity to `total_quantity`, bump `order_count`. -/
def PriceLevel.addOrder (l : PriceLevel) (o : Order) : PriceLevel :=
  { l with
    orders := l.orders ++ [o]
    total_quantity := l.total_quantity + o.remaining_quantity
    order_count := l.order_count + 1 }

/-- Remove the first order with the given id from a queue, returning the
removed order.  (In C++ removal is by direct pointer; ids are unique in
any reachable book, so first-match removal is the same operation.) -/
def removeFirst (id : Nat) : List Order → List Order × Option Order
  | [] => ([], none)
  | o :: rest =>
    if o.id = id then (rest, some o)
    else
      let r := removeFirst id rest
      (o :: r.1, r.2)

/-- Find the first order with the given id in a queue. -/
def findOrder (id : Nat) : List Order → Option Order
  | [] => none
  | o :: rest => if o.id = id then some o else findOrder id rest

/-- `PriceLevel::removeOrder`: unlink the order, subtract its remaining
quantity from `total_quantity`, decrement `order_count`. -/
def PriceLevel.removeOrder (l : PriceLevel) (id : Nat) : PriceLevel :=
  match removeFirst id l.orders with
  | (rest, some o) =>
    { l with
      orders := rest
      total_quantity := l.total_quantity - o.remaining_quantity
      order_count := l.order_count - 1 }
  | (_, none) => l

/-- Replace the first order with the given id by `f` applied to it. -/
def replaceFirst (id : Nat) (f : Order → Order) : List Order → List Order
  | [] => []
  | o :: rest => if o.id = id then f o :: rest else o :: replaceFirst id f rest

/-- `PriceLevel::modifyOrder`: adjust `total_quantity` by the signed
difference, write the new remaining quantity, and set
`quantity := max(quantity, new_qty)`.  The queue position is untouched. -/
def PriceLevel.modifyOrder (l : PriceLevel) (id : Nat) (new_qty : Nat) : PriceLevel :=
  match findOrder id l.orders with
  | some o =>
    { l with
      orders := replaceFirst id
        (fun x => { x with remaining_quantity := new_qty, quantity := max x.quantity new_qty })
        l.orders
      total_quantity := l.total_quantity + new_qty - o.remaining_quantity }
  | none => l

/-- `Execution` from `include/lob/order_book.hpp`. -/
structure Execution where
  bid_id : Nat
  ask_id : Nat
  price : Int
  quantity : Nat
  timestamp : Nat
deriving DecidableEq, Repr

/-- `OrderBook`: both sides as best-first sorted level lists
(`std::map` with `greater` resp. `less` comparators). -/
structure OrderBook where
  bid_levels : List PriceLevel
  ask_levels : List PriceLevel
deriving DecidableEq, Repr

/-- The empty book (fresh `OrderBook{symbol}`). -/
def emptyBook : OrderBook := ⟨[], []⟩

/-- All orders resting on the bid side, best level first, FIFO inside a
level. -/
def bidOrdersOf (b : OrderBook) : List Order := (b.bid_levels.map PriceLevel.orders).flatten

/-- All orders resting on the ask side. -/
def askOrdersOf (b : OrderBook) : List Order := (b.ask_levels.map PriceLevel.orders).flatten

/-- All orders resting in the book; this is the model of the `orders_`
id map (the C++ code keeps map and levels in exact sync). -/
def ordersOf (b : OrderBook) : List Order := bidOrdersOf b ++ askOrdersOf b

/-- `orders_.find(id) != orders_.end()`. -/
def containsId (b : OrderBook) (id : Nat) : Bool := (ordersOf b).any (fun o => o.id = id)

/-- `getOrCreateLevel` followed by `level->addOrder`, for one side.
`better p q` is the map's comparator (`>` for bids, `<` for asks):
levels are kept sorted best-first and a missing level is created in
place. -/
def addToLevels (better : Int → Int → Bool) (s : Side) (o : Order) :
    List PriceLevel → List PriceLevel
  | [] => [PriceLevel.addOrder ⟨o.price, s, 0, 0, []⟩ o]
  | l :: rest =>
    if l.price = o.price then l.addOrder o :: rest
    else if better o.price l.price then
      PriceLevel.addOrder ⟨o.price, s, 0, 0, []⟩ o :: l :: rest
    else l :: addToLevels better s o rest

/-- `OrderBook::addOrder` (src/order_book.cpp, lines 63–90): fail on a
duplicate id, otherwise link the order into its (possibly new) price
level and store it.  There is no quantity validation and no matching. -/
def OrderBook.addOrder (b : OrderBook) (o : Order) : OrderBook × Bool :=
  if containsId b o.id then (b, false)
  else
    match o.side with
    | Side.BID => ({ b with bid_levels := addToLevels (fun p q => q < p) Side.BID o b.bid_levels }, true)
    | Side.ASK => ({ b with ask_levels := addToLevels (fun p q => p < q) Side.ASK o b.ask_levels }, true)

/-- The per-level transformation of `OrderBook::modifyOrder`, given the
order `o` found in the id map: quantity increase ⇒ unlink, rewrite
both quantity fields, re-append at the tail; otherwise reduce in
place via `PriceLevel::modifyOrder`. -/
def modifyLevel (l : PriceLevel) (o : Order) (new_quantity : Nat) : PriceLevel :=
  if o.remaining_quantity < new_quantity then
    (l.removeOrder o.id).addOrder
      { o with remaining_quantity := new_quantity, quantity := new_quantity }
  else
    l.modifyOrder o.id new_quantity

/-- Walk a side looking for the level holding `id`; apply `modifyLevel`
there.  (C++ reaches the level through the order's back-pointer; with
unique ids the search finds the same level.) -/
def modifyInLevels (id : Nat) (new_quantity : Nat) :
    List PriceLevel → Option (List PriceLevel)
  | [] => none
  | l :: rest =>
    match findOrder id l.orders with
    | some o => some (modifyLevel l o new_quantity :: rest)
    | none =>
      match modifyInLevels id new_quantity rest with
      | some rest' => some (l :: rest')
      | none => none

/-- `OrderBook::modifyOrder` (src/order_book.cpp, lines 92–121). -/
def OrderBook.modifyOrder (b : OrderBook) (id : Nat) (new_quantity : Nat) :
    OrderBook × Bool :=
  match modifyInLevels id new_quantity b.bid_levels with
  | some bl => ({ b with bid_levels := bl }, true)
  | none =>
    match modifyInLevels id new_quantity b.ask_levels with
    | some al => ({ b with ask_levels := al }, true)
    | none => (b, false)

/-- Walk a side looking for the level holding `id`; remove the order
there and erase the level if it became empty. -/
def cancelInLevels (id : Nat) : List PriceLevel → Option (List PriceLevel)
  | [] => none
  | l :: rest =>
    match findOrder id l.orders with
    | some _ =>
      let l' := l.removeOrder id
      some (if l'.orders.isEmpty then rest else l' :: rest)
    | none =>
      match cancelInLevels id rest with
      | some rest' => some (l :: rest')
      | none => none

/-- `OrderBook::cancelOrder` (src/order_book.cpp, lines 123–152). -/
def OrderBook.cancelOrder (b : OrderBook) (id : Nat) : OrderBook × Bool :=
  match cancelInLevels id b.bid_levels with
  | some bl => ({ b with bid_levels := bl }, true)
  | none =>
    match cancelInLevels id b.ask_levels with
    | some al => ({ b with ask_levels := al }, true)
    | none => (b, false)

/-- Inner loop of `OrderBook::processMarketOrder` over one price
level's queue.  Returns the executions emitted, the aggressor's
remaining quantity, the queue after the loop, the total quantity filled
at this level (subtracted from `total_quantity` one fill at a time in
the C++), and the number of passive orders removed (each removal also
subtracts the order's remaining quantity, which is zero at that point,
and decrements `order_count`). -/
def sweepOrders (side : Side) (lvlPrice : Int) (ts : Nat) :
    Nat → List Order → List Execution × Nat × List Order × Nat × Nat
  | 0, os => ([], 0, os, 0, 0)
  | r + 1, [] => ([], r + 1, [], 0, 0)
  | r + 1, o :: rest =>
    let remaining := r + 1
    let fill := min remaining o.remaining_quantity
    let e : Execution :=
      if side = Side.BID then ⟨0, o.id, lvlPrice, fill, ts⟩
      else ⟨o.id, 0, lvlPrice, fill, ts⟩
    if o.remaining_quantity - fill = 0 then
      -- the passive order is fully filled: remove it from level and map
      let rec1 := sweepOrders side lvlPrice ts (remaining - fill) rest
      (e :: rec1.1, rec1.2.1, rec1.2.2.1, fill + rec1.2.2.2.1, rec1.2.2.2.2 + 1)
    else
      -- front not fully filled: then `fill = remaining`, the aggressor
      -- is exhausted and the C++ while-loop exits on its next check
      ([e], remaining - fill,
        { o with remaining_quantity := o.remaining_quantity - fill } :: rest, fill, 0)

/-- Outer loop of `OrderBook::processMarketOrder` over the opposite
side's levels, best first.  An emptied level is erased; a level left
non-empty means the aggressor was exhausted and the loop exits. -/
def sweepLevels (side : Side) (ts : Nat) :
    Nat → List PriceLevel → List Execution × List PriceLevel
  | 0, ls => ([], ls)
  | r + 1, [] => ([], [])
  | r + 1, l :: rest =>
    let res := sweepOrders side l.price ts (r + 1) l.orders
    let l' : PriceLevel :=
      { l with
        orders := res.2.2.1
        total_quantity := l.total_quantity - res.2.2.2.1
        order_count := l.order_count - res.2.2.2.2 }
    if res.2.2.1.isEmpty then
      let res2 := sweepLevels side ts res.2.1 rest
      (res.1 ++ res2.1, res2.2)
    else (res.1, l' :: rest)

/-- `OrderBook::processMarketOrder` (src/order_book.cpp, lines
154–201): sweep the opposite side; the unfilled remainder is dropped
and the aggressor side of the book is untouched. -/
def OrderBook.processMarketOrder (b : OrderBook) (side : Side) (quantity : Nat)
    (timestamp : Nat) : List Execution × OrderBook :=
  match side with
  | Side.BID =>
    let res := sweepLevels Side.BID timestamp quantity b.ask_levels
    (res.1, { b with ask_levels := res.2 })
  | Side.ASK =>
    let res := sweepLevels Side.ASK timestamp quantity b.bid_levels
    (res.1, { b with bid_levels := res.2 })

/-- Inner loop of `OrderBook::matchOrders` over the two best levels'
queues: match the two front orders at the price of the earlier-arrived
order, with the later of the two timestamps; each iteration fully fills
(and removes) at least one of the two fronts. -/
def matchQueues : List Order → List Order → List Execution × List Order × List Order
  | [], as => ([], [], as)
  | b :: bs, [] => ([], b :: bs, [])
  | bo :: brest, ao :: arest =>
    let q := min bo.remaining_quantity ao.remaining_quantity
    let px := if bo.timestamp < ao.timestamp then bo.price else ao.price
    let e : Execution := ⟨bo.id, ao.id, px, q, max bo.timestamp ao.timestamp⟩
    if hb : bo.remaining_quantity - q = 0 then
      if ha : ao.remaining_quantity - q = 0 then
        let r := matchQueues brest arest
        (e :: r.1, r.2)
      else
        let r := matchQueues brest
          ({ ao with remaining_quantity := ao.remaining_quantity - q } :: arest)
        (e :: r.1, r.2)
    else
      if ha : ao.remaining_quantity - q = 0 then
        let r := matchQueues
          ({ bo with remaining_quantity := bo.remaining_quantity - q } :: brest) arest
        (e :: r.1, r.2)
      else
        -- unreachable: `q` equals one of the two remainders
        ([e], bo :: brest, ao :: arest)
termination_by bs as => bs.length + as.length
decreasing_by
  all_goals simp only [List.length_cons]
  · omega
  · omega
  · omega

/-- After `matchQueues`, at least one of the two queues is empty (the
C++ inner `while` exits only when a level empties). -/
theorem matchQueues_one_empty (bs as : List Order) :
    (matchQueues bs as).2.1 = [] ∨ (matchQueues bs as).2.2 = [] := by
  induction bs, as using matchQueues.induct with
  | case1 as => simp [matchQueues]
  | case2 b bs => simp [matchQueues]
  | case3 bo brest ao arest q hb ha ih =>
    simp only [matchQueues, hb, ha, dite_true, dite_false]
    exact ih
  | case4 bo brest ao arest q hb ha ih =>
    simp only [matchQueues, hb, ha, dite_true, dite_false]
    exact ih
  | case5 bo brest ao arest q hb ha ih =>
    simp only [matchQueues, hb, ha, dite_true, dite_false]
    exact ih
  | case6 bo brest ao arest q hb ha =>
    exfalso
    have hq : q = min bo.remaining_quantity ao.remaining_quantity := rfl
    omega

/-- Sum of executed quantities. -/
def execSum (es : List Execution) : Nat := (es.map Execution.quantity).sum

/-- Outer loop of `OrderBook::matchOrders`: while both sides are
non-empty and the best bid price is not below the best ask price, match
the two best levels, erase whichever emptied, and loop.  The stored
aggregates are decremented by the matched quantity per execution (the
removal of a filled order additionally subtracts its — by then zero —
remaining quantity). -/
def matchLoop : List PriceLevel → List PriceLevel →
    List Execution × List PriceLevel × List PriceLevel
  | [], as => ([], [], as)
  | b :: bs, [] => ([], b :: bs, [])
  | bl :: brest, al :: arest =>
    if bl.price < al.price then ([], bl :: brest, al :: arest)
    else
      let r := matchQueues bl.orders al.orders
      let bl' : PriceLevel :=
        { bl with
          orders := r.2.1
          total_quantity := bl.total_quantity - execSum r.1
          order_count := bl.order_count - (bl.orders.length - r.2.1.length) }
      let al' : PriceLevel :=
        { al with
          orders := r.2.2
          total_quantity := al.total_quantity - execSum r.1
          order_count := al.order_count - (al.orders.length - r.2.2.length) }
      let bs' := if bl'.orders.isEmpty then brest else bl' :: brest
      let as' := if al'.orders.isEmpty then arest else al' :: arest
      let r2 := matchLoop bs' as'
      (r.1 ++ r2.1, r2.2)
termination_by bs as => bs.length + as.length
decreasing_by
  simp_wf
  rcases matchQueues_one_empty bl.orders al.orders with h | h <;>
    rw [h] <;> simp <;> (try split) <;> (try simp only [List.length_cons]) <;> omega

/-- `OrderBook::matchOrders` (src/order_book.cpp, lines 203–265). -/
def OrderBook.matchOrders (b : OrderBook) : List Execution × OrderBook :=
  let r := matchLoop b.bid_levels b.ask_levels
  (r.1, { bid_levels := r.2.1, ask_levels := r.2.2 })

/-- `getBestBid` after cache refresh: first key of `bid_levels_`, `0`
when the side is empty. -/
def OrderBook.getBestBid (b : OrderBook) : Int :=
  match b.bid_levels with
  | [] => 0
  | l :: _ => l.price

/-- `getBestAsk` after cache refresh. -/
def OrderBook.getBestAsk (b : OrderBook) : Int :=
  match b.ask_levels with
  | [] => 0
  | l :: _ => l.price

/-- Specification of market-order consumption of one FIFO queue,
written from the claim's words (not from the implementation): take the
front (oldest) order first, fill `min(remaining aggressor, front's
remaining)`, remove fully filled passive orders, keep a partially
filled front.  Returns the `(passive id, fill quantity)` pairs in
order, the aggressor's leftover, and the surviving queue. -/
def specConsumeQueue : Nat → List Order → List (Nat × Nat) × Nat × List Order
  | r, [] => ([], r, [])
  | 0, os => ([], 0, os)
  | r, o :: rest =>
    let f := min r o.remaining_quantity
    if f = o.remaining_quantity then
      let res := specConsumeQueue (r - f) rest
      ((o.id, f) :: res.1, res.2)
    else
      ([(o.id, f)], r - f, { o with remaining_quantity := o.remaining_quantity - f } :: rest)

/-- Specification of the whole market-order sweep, written from the
claim's words: consume the best (first) level first, erase a level once
emptied, stop when the aggressor is exhausted; the unfilled remainder
is discarded.  Levels are abstracted to `(price, queue)` pairs. -/
def specMarketSweep : Nat → List (Int × List Order) → List (Nat × Nat) × List (Int × List Order)
  | _, [] => ([], [])
  | 0, ls => ([], ls)
  | r, (p, os) :: rest =>
    let res := specConsumeQueue r os
    if res.2.2 = [] then
      let res2 := specMarketSweep res.2.1 rest
      (res.1 ++ res2.1, res2.2)
    else (res.1, (p, res.2.2) :: rest)

/-- Projection of a level to the data the C3 specification talks
about. -/
def levelView (l : PriceLevel) : Int × List Order := (l.price, l.orders)

/-- The passive-order id recorded in an execution: the aggressor's own
field holds `0`, the passive order's id is in the other field. -/
def passiveId (side : Side) (e : Execution) : Nat :=
  match side with
  | Side.BID => e.ask_id
  | Side.ASK => e.bid_id

/-- One public mutating operation of the fast book; `matched` is an
explicit `matchOrders` call. -/
inductive BookOp where
  | add (o : Order)
  | modify (id : Nat) (new_quantity : Nat)
  | cancel (id : Nat)
  | market (side : Side) (quantity : Nat) (timestamp : Nat)
  | matched

/-- Apply one operation (discarding return values/executions). -/
def applyOp (b : OrderBook) : BookOp → OrderBook
  | BookOp.add o => (b.addOrder o).1
  | BookOp.modify id q => (b.modifyOrder id q).1
  | BookOp.cancel id => (b.cancelOrder id).1
  | BookOp.market s q ts => (b.processMarketOrder s q ts).2
  | BookOp.matched => b.matchOrders.2

/-- Apply a sequence of operations to a book. -/
def applyOps (b : OrderBook) (ops : List BookOp) : OrderBook := ops.foldl applyOp b

/-- Level consistency (spec §8, invariant 2): the stored aggregate
`total_quantity` is the sum of remaining quantities over the queue and
`order_count` is the queue's length. -/
def LevelOK (l : PriceLevel) : Prop :=
  l.total_quantity = (l.orders.map Order.remaining_quantity).sum ∧
  l.order_count = l.orders.length

/-- Every level on both sides is consistent. -/
def BookOK (b : OrderBook) : Prop :=
  (∀ l ∈ b.bid_levels, LevelOK l) ∧ (∀ l ∈ b.ask_levels, LevelOK l)

/-! ## Backtester embedding (`include/lob/backtester.hpp`, `src/backtester.cpp`)

`double` arithmetic is modelled with `ℚ`; `priceToDouble(p) = p / 100.0`
becomes exact rational division. -/

/-- `priceToDouble` from `include/lob/order_book.hpp`. -/
def priceToDouble (p : Int) : ℚ := (p : ℚ) / 100

/-- `Position` from `include/lob/backtester.hpp` (the `symbol` string
and the unused scratch field `unrealized_pnl` are omitted). -/
structure Position where
  quantity : Int
  average_price : ℚ
  realized_pnl : ℚ
  total_traded : Nat
deriving DecidableEq, Repr

/-- A fresh default-constructed `Position`. -/
def Position.flat : Position := ⟨0, 0, 0, 0⟩

/-- `Position::updatePosition` (src/backtester.cpp, lines 10–26). -/
def Position.updatePosition (pos : Position) (dq : Int) (px : ℚ) : Position :=
  if dq = 0 then pos
  else
    let pos1 :=
      if (0 ≤ pos.quantity ∧ 0 < dq) ∨ (pos.quantity ≤ 0 ∧ dq < 0) then
        -- add to same direction: update the average price
        let notional_old : ℚ := |(pos.quantity : ℚ)| * pos.average_price
        let notional_new : ℚ := |(dq : ℚ)| * px
        let size_new : ℚ := |((pos.quantity + dq : Int) : ℚ)|
        { pos with average_price :=
            if 0 < size_new then (notional_old + notional_new) / size_new else 0 }
      else
        -- reduce or flip: realize PnL on the closed portion
        let closed : ℚ := min |(pos.quantity : ℚ)| |(dq : ℚ)|
        { pos with realized_pnl :=
            pos.realized_pnl + (px - pos.average_price) *
              (if 0 < pos.quantity then closed else -closed) }
    let pos2 := { pos1 with
      quantity := pos1.quantity + dq
      total_traded := pos1.total_traded + dq.natAbs }
    if pos2.quantity = 0 then { pos2 with average_price := 0 } else pos2

/-- `Portfolio` (cash, commission rate and per-symbol positions; the
slippage model is `nullptr` by default and contributes `0`). -/
structure Portfolio where
  cash : ℚ
  commission_rate : ℚ
  positions : List (String × Position)
deriving DecidableEq, Repr

/-- Lookup-or-default into the positions map (`positions_[sym]`). -/
def Portfolio.getPos (pf : Portfolio) (sym : String) : Position :=
  match pf.positions.lookup sym with
  | some p => p
  | none => Position.flat

/-- Store a position under a symbol. -/
def setPos (ps : List (String × Position)) (sym : String) (p : Position) :
    List (String × Position) :=
  match ps with
  | [] => [(sym, p)]
  | (s, q) :: rest => if s = sym then (s, p) :: rest else (s, q) :: setPos rest sym p

/-- `Portfolio::updatePosition` (src/backtester.cpp, lines 40–51). -/
def Portfolio.updatePosition (pf : Portfolio) (sym : String) (dq : Int) (px : ℚ) :
    Portfolio :=
  let pos := pf.getPos sym
  let traded_notional : ℚ := |(dq : ℚ)| * px
  let commission : ℚ := pf.commission_rate * traded_notional
  { pf with
    cash := pf.cash - ((dq : ℚ) * px + commission)
    positions := setPos pf.positions sym (pos.updatePosition dq px) }

/-- `Portfolio::getNetPosition`. -/
def Portfolio.getNetPosition (pf : Portfolio) (sym : String) : Int :=
  match pf.positions.lookup sym with
  | some p => p.quantity
  | none => 0

/-- `MarketDataUpdate::Type`. -/
inductive UpdateType where
  | ADD_ORDER
  | MODIFY_ORDER
  | CANCEL_ORDER
  | TRADE
  | CLEAR
  | SNAPSHOT
deriving DecidableEq, Repr

/-- `MarketDataUpdate` from `include/lob/order_book.hpp`. -/
structure MarketDataUpdate where
  type : UpdateType
  side : Side
  price : Int
  quantity : Nat
  order_id : Nat
  timestamp : Nat
deriving DecidableEq, Repr

/-- Zero-initialised `MarketDataUpdate{}`. -/
def MarketDataUpdate.zero : MarketDataUpdate :=
  ⟨UpdateType.ADD_ORDER, Side.BID, 0, 0, 0, 0⟩

/-- `Event::Type` from `include/lob/event.hpp`. -/
inductive EventType where
  | MARKET_DATA
  | SIGNAL
  | ORDER
  | FILL
  | END_OF_DAY
deriving DecidableEq, Repr

/-- `Event` from `include/lob/event.hpp`.  The `signal` and `order`
payloads are not needed by any claim and are omitted. -/
structure Event where
  type : EventType
  timestamp : Nat
  symbol : String
  market_update : Option MarketDataUpdate
  execution : Option Execution
deriving DecidableEq, Repr

/-- Value-initialised `Event{}`: `Type{}` is the first enumerator
`MARKET_DATA`, the optionals are disengaged. -/
def Event.zero : Event := ⟨EventType.MARKET_DATA, 0, "", none, none⟩

/-- `splitCSV` (src/backtester.cpp, lines 120–131): split on commas
outside double quotes; quote characters toggle the in-quote flag and
are dropped. -/
def splitCSVAux : List Char → Bool → String → List String
  | [], _, cur => [cur]
  | c :: rest, in_q, cur =>
    if c = '"' then splitCSVAux rest (!in_q) cur
    else if c = ',' ∧ !in_q then cur :: splitCSVAux rest in_q ""
    else splitCSVAux rest in_q (cur.push c)

/-- `splitCSV` on a whole line. -/
def splitCSV (s : String) : List String := splitCSVAux s.data false ""

/-- `std::stoull`/`std::stoul`: parse a leading run of decimal digits.
(When the string has no leading digits `stoull` throws; the inputs used
by the theorems below are well-formed numbers, so the throwing case is
modelled as `0` and never exercised.) -/
def stoullAux : List Char → Nat → Nat
  | [], acc => acc
  | c :: rest, acc =>
    if c.isDigit then stoullAux rest (acc * 10 + (c.toNat - 48)) else acc

/-- `std::stoull`. -/
def stoull (s : String) : Nat := stoullAux s.data 0

/-- `std::stoll`: like `stoull` with an optional leading minus sign. -/
def stoll (s : String) : Int :=
  match s.data with
  | '-' :: rest => -(stoullAux rest 0 : Int)
  | cs => (stoullAux cs 0 : Int)

/-- Column access `cols[i]`.  (C++ `std::vector::operator[]` out of
range is undefined behaviour; every line fed to the theorems below has
all seven columns, so this is modelled as returning `""`.) -/
def col (cols : List String) (i : Nat) : String := cols.getD i ""

/-- `CSVDataSource::parseLine` (src/backtester.cpp, lines 133–173). -/
def parseLine (line : String) : Event :=
  let cols := splitCSV line
  if cols.length < 3 then Event.zero
  else
    let ts := stoull (col cols 0)
    let sym := col cols 1
    let ty := col cols 2
    if ty = "ADD" then
      { Event.zero with
        type := EventType.MARKET_DATA, timestamp := ts, symbol := sym
        market_update := some
          { MarketDataUpdate.zero with
            type := UpdateType.ADD_ORDER
            timestamp := ts
            side := if col cols 3 = "BID" then Side.BID else Side.ASK
            price := stoll (col cols 4)
            quantity := stoull (col cols 5)
            order_id := stoull (col cols 6) } }
    else if ty = "CANCEL" then
      { Event.zero with
        type := EventType.MARKET_DATA, timestamp := ts, symbol := sym
        market_update := some
          { MarketDataUpdate.zero with
            type := UpdateType.CANCEL_ORDER
            timestamp := ts
            side := if col cols 3 = "BID" then Side.BID else Side.ASK
            order_id := stoull (col cols 6) } }
    else if ty = "MODIFY" then
      { Event.zero with
        type := EventType.MARKET_DATA, timestamp := ts, symbol := sym
        market_update := some
          { MarketDataUpdate.zero with
            type := UpdateType.MODIFY_ORDER
            timestamp := ts
            side := if col cols 3 = "BID" then Side.BID else Side.ASK
            order_id := stoull (col cols 6)
            quantity := stoull (col cols 5) } }
    else if ty = "TRADE" then
      { Event.zero with
        type := EventType.FILL, timestamp := ts, symbol := sym
        execution := some ⟨0, 0, stoll (col cols 4), stoull (col cols 5), ts⟩ }
    else if ty = "EOD" then
      { Event.zero with type := EventType.END_OF_DAY, timestamp := ts, symbol := sym }
    else
      { Event.zero with type := EventType.MARKET_DATA, timestamp := ts, symbol := sym }

/-- `getMidPrice`: `(best_bid + best_ask) / 200.0` when both are
non-zero, else `0`. -/
def OrderBook.getMidPrice (b : OrderBook) : ℚ :=
  if b.getBestBid = 0 ∨ b.getBestAsk = 0 then 0
  else ((b.getBestBid + b.getBestAsk : Int) : ℚ) / 200

/-- The backtester state touched by the claims: the per-symbol books,
the portfolio and the mark-price map.  (Strategy callbacks, the signal
generator and the performance counters are orthogonal to every claim
and are omitted.) -/
structure EngineState where
  books : List (String × OrderBook)
  portfolio : Portfolio
  current_prices : List (String × ℚ)
deriving DecidableEq, Repr

/-- `Backtester::getOrCreateOrderBook`. -/
def getOrCreateOrderBook (books : List (String × OrderBook)) (sym : String) :
    List (String × OrderBook) :=
  match books.lookup sym with
  | some _ => books
  | none => books ++ [(sym, emptyBook)]

/-- Lookup a book that is known to be present. -/
def bookOf (books : List (String × OrderBook)) (sym : String) : OrderBook :=
  match books.lookup sym with
  | some b => b
  | none => emptyBook

/-- Store a book under a symbol. -/
def setBook (books : List (String × OrderBook)) (sym : String) (b : OrderBook) :
    List (String × OrderBook) :=
  match books with
  | [] => [(sym, b)]
  | (s, q) :: rest => if s = sym then (s, b) :: rest else (s, q) :: setBook rest sym b

/-- Store a mark price under a symbol. -/
def setPrice (ps : List (String × ℚ)) (sym : String) (v : ℚ) : List (String × ℚ) :=
  match ps with
  | [] => [(sym, v)]
  | (s, q) :: rest => if s = sym then (s, v) :: rest else (s, q) :: setPrice rest sym v

/-- `Backtester::processMarketData` (src/backtester.cpp, lines
213–255).  The function starts with `const auto& u = *e.market_update;`
and switches on `u.type`: when the optional is disengaged this reads an
indeterminate value — undefined behaviour — modelled as `none`.
(Before the faulty read, `getOrCreateOrderBook` has already inserted a
fresh book for the symbol.) -/
def processMarketData (e : Event) (st : EngineState) : Option EngineState :=
  match e.market_update with
  | none => none
  | some u =>
    let books1 := getOrCreateOrderBook st.books e.symbol
    let bk := bookOf books1 e.symbol
    let bk' :=
      match u.type with
      | UpdateType.ADD_ORDER =>
        (bk.addOrder ⟨u.order_id, u.price, u.quantity, u.quantity, u.side, u.timestamp⟩).1
      | UpdateType.MODIFY_ORDER => (bk.modifyOrder u.order_id u.quantity).1
      | UpdateType.CANCEL_ORDER => (bk.cancelOrder u.order_id).1
      | UpdateType.TRADE => bk
      | UpdateType.CLEAR => emptyBook
      | UpdateType.SNAPSHOT => bk
    some
      { books := setBook books1 e.symbol bk'
        portfolio := st.portfolio
        current_prices := setPrice st.current_prices e.symbol bk'.getMidPrice }

/-- `Backtester::processFill` (src/backtester.cpp, lines 287–296):
infer the fill's sign from `bid_id != 0` and book it into the
portfolio at `priceToDouble(ex.price)`.  Dereferencing `*e.execution`
on a disengaged optional is undefined behaviour, modelled as `none`. -/
def processFill (e : Event) (st : EngineState) : Option EngineState :=
  match e.execution with
  | none => none
  | some ex =>
    let buy_fill := ex.bid_id ≠ 0
    let dq : Int := if buy_fill then (ex.quantity : Int) else -(ex.quantity : Int)
    let px := priceToDouble ex.price
    some { st with portfolio := st.portfolio.updatePosition e.symbol dq px }

end lob

namespace lobq

/-!
## The portable book (`order_book.hpp` + `signals.hpp` at repo root)

Only what claim C9 needs: `Level` with its `orders` vector, sides as
best-first sorted level lists (as produced by `BookSide::sort_prices`,
which also filters out empty levels), `best_price`/`get_levels`, and
`Signals::queue_position`. -/

/-- `Side` of the portable book. -/
inductive Side where
  | Buy
  | Sell
deriving DecidableEq, Repr

/-- `Order` of the portable book, reduced to the fields
`queue_position` can observe. -/
structure Order where
  order_id : Nat
  side : Side
  price : Int
  quantity : Nat
deriving DecidableEq, Repr

/-- `Level`: a price level with its `orders` vector. -/
structure Level where
  price : Int
  total_quantity : Nat
  orders : List Order
deriving DecidableEq, Repr

/-- The book as seen through `get_bid_levels`/`get_ask_levels`: each
side a list of non-empty levels sorted best-first (bids descending,
asks ascending). -/
structure OrderBook where
  bid_side : List Level
  ask_side : List Level
deriving DecidableEq, Repr

/-- `BookSide::best_price`: first sorted price, `0` when empty. -/
def best_price (side : List Level) : Int :=
  match side with
  | [] => 0
  | l :: _ => l.price

/-- `OrderBook::best_bid`. -/
def OrderBook.best_bid (b : OrderBook) : Int := best_price b.bid_side

/-- `OrderBook::best_ask`. -/
def OrderBook.best_ask (b : OrderBook) : Int := best_price b.ask_side

/-- `BookSide::get_levels(max_levels)`: up to `max_levels` levels from
the best outward. -/
def get_levels (side : List Level) (max_levels : Nat) : List Level :=
  side.take max_levels

/-- `Signals::queue_position` (signals.hpp, lines 227–239).  Note that
the code takes `.front()` of `get_bid_levels(1000)` — the *best* level,
not the level at `price` (its own comment says "Get level at price") —
and `.front()` of an empty vector is undefined behaviour, modelled as
`none`. -/
def queue_position (b : OrderBook) (side : Side) (price : Int) : Option Nat :=
  match side with
  | Side.Buy =>
    if b.best_bid < price then some 1
    else
      match (get_levels b.bid_side 1000).head? with
      | none => none
      | some level => some (level.orders.length + 1)
  | Side.Sell =>
    if price < b.best_ask then some 1
    else
      match (get_levels b.ask_side 1000).head? with
      | none => none
      | some level => some (level.orders.length + 1)

/-- The level resting at exactly `(side, price)`, if any. -/
def levelAt (b : OrderBook) (side : Side) (price : Int) : Option Level :=
  match side with
  | Side.Buy => (b.bid_side.filter (fun l => l.price = price)).head?
  | Side.Sell => (b.ask_side.filter (fun l => l.price = price)).head?

/-- The queue position the claim describes: `1` when the price betters
the touch, otherwise one more than the number of orders resting at that
exact `(side, price)` level. -/
def claimQueuePosition (b : OrderBook) (side : Side) (price : Int) : Nat :=
  match side with
  | Side.Buy =>
    if b.best_bid < price then 1
    else
      match levelAt b side price with
      | none => 1
      | some l => l.orders.length + 1
  | Side.Sell =>
    if price < b.best_ask then 1
    else
      match levelAt b side price with
      | none => 1
      | some l => l.orders.length + 1

end lobq

namespace lob

/-! ### Concrete inputs used by counterexamples and witnesses -/

/-- Resting bid, id 1 at 100. -/
def oBid1 : Order := ⟨1, 100, 10, 10, Side.BID, 1⟩

/-- Crossing ask, id 2 at 90. -/
def oAsk2 : Order := ⟨2, 90, 10, 10, Side.ASK, 2⟩

/-- The book after adding the bid at 100 and then the ask at 90: the
two `addOrder` calls of the repository's own "Add/Match crossing
orders" test, which only uncrosses after an explicit `matchOrders`. -/
def crossedBook : OrderBook := ((emptyBook.addOrder oBid1).1.addOrder oAsk2).1

/-- A second crossed book (fresh ids) used to exercise `matchOrders`
executions. -/
def c2Book : OrderBook :=
  ((emptyBook.addOrder ⟨11, 100, 10, 10, Side.BID, 1⟩).1.addOrder
    ⟨12, 90, 10, 10, Side.ASK, 2⟩).1

/-- The single execution `matchOrders` emits on `c2Book`: matched at
the earlier (bid) order's price 100, with the later timestamp 2. -/
def c2Exec : Execution := ⟨11, 12, 100, 10, 2⟩

/-- A zero-quantity order. -/
def oZero : Order := ⟨1, 100, 0, 0, Side.BID, 1⟩

/-- A book with one resting bid of 10 at 100 (id 1). -/
def oneBidBook : OrderBook := (emptyBook.addOrder ⟨1, 100, 10, 10, Side.BID, 1⟩).1

/-- First order of the two-order level used by the C4 witness. -/
def o4a : Order := ⟨1, 100, 5, 5, Side.BID, 1⟩

/-- Second order of the two-order level used by the C4 witness. -/
def o4b : Order := ⟨2, 100, 7, 7, Side.BID, 2⟩

/-- A book with two bids queued FIFO at price 100. -/
def twoBidBook : OrderBook := ((emptyBook.addOrder o4a).1.addOrder o4b).1

/-- The single price level of `twoBidBook`. -/
def twoBidLevel : PriceLevel := ⟨100, Side.BID, 12, 2, [o4a, o4b]⟩

/-- A book with one resting ask of 10 at 105 (id 9), for the C10
witness. -/
def oneAskBook : OrderBook := (emptyBook.addOrder ⟨9, 105, 10, 10, Side.ASK, 3⟩).1

/-- A fill event (sell fill: `bid_id = 0`) for the C10 witness. -/
def c10FillEvent : Event :=
  ⟨EventType.FILL, 7, "S", none, some ⟨0, 2, 100, 5, 7⟩⟩

/-- An engine state with an empty million-cash portfolio and zero
commission. -/
def c10State : EngineState := ⟨[], ⟨1000000, 0, []⟩, []⟩

/-- An unrecognized CSV line (type `QUOTE` is not one of
ADD/CANCEL/MODIFY/TRADE/EOD). -/
def c8Line : String := "1000,SYM,QUOTE,BID,100,5,7"

/-- An engine state holding one non-trivial book, to show the faulting
path of `processMarketData`. -/
def c8State : EngineState := ⟨[("SYM", oneBidBook)], ⟨1000000, 0, []⟩, []⟩

end lob

namespace lobq

/-- Book for the C9 failing input: bids at 100 (one order) and at 99
(two orders), empty ask side. -/
def c9Book : OrderBook :=
  ⟨[⟨100, 10, [⟨1, Side.Buy, 100, 10⟩]⟩,
    ⟨99, 20, [⟨2, Side.Buy, 99, 10⟩, ⟨3, Side.Buy, 99, 10⟩]⟩], []⟩

end lobq

namespace lob

/-- The fields of an order that matching never mutates (matching only
decrements `remaining_quantity`). -/
def sameCore (x y : Order) : Prop :=
  x.id = y.id ∧ x.price = y.price ∧ x.timestamp = y.timestamp

/-- The C2 property of one execution against the matched bid/ask pair:
ids recorded, price of whichever order has the strictly earlier
timestamp (the resting one; on a timestamp tie the code takes the ask's
price), timestamp the maximum of the two. -/
def execFromPair (e : Execution) (bo ao : Order) : Prop :=
  e.bid_id = bo.id ∧ e.ask_id = ao.id ∧
  (bo.timestamp < ao.timestamp → e.price = bo.price) ∧
  (¬ bo.timestamp < ao.timestamp → e.price = ao.price) ∧
  e.timestamp = max bo.timestamp ao.timestamp

/-- An order whose core fields occur among the orders of some level of
`ls`. -/
def coreInLevels (x : Order) (ls : List PriceLevel) : Prop :=
  ∃ l ∈ ls, ∃ y ∈ l.orders, sameCore x y

/-- The engine state after processing `c10FillEvent` from `c10State`:
the portfolio books a sell of 5 at `priceToDouble 100`. -/
def c10After : EngineState :=
  { c10State with
    portfolio := c10State.portfolio.updatePosition "S" (-((5 : Nat) : Int)) (priceToDouble 100) }

end lob

/-!
## Theorems

Claim theorems are named `C<n>_...`; everything else is a shared helper
lemma.
-/

open lob

section Helpers

/-- Membership in `any` with an id test. -/
theorem containsId_eq_true {b : OrderBook} {id : Nat}
    (h : ∃ o ∈ ordersOf b, o.id = id) : containsId b id = true := by
  rcases h with ⟨o, ho, hid⟩
  simp only [containsId, List.any_eq_true, decide_eq_true_eq]
  exact ⟨o, ho, hid⟩

/-- `addToLevels` puts the new order into some level of the result. -/
theorem mem_addToLevels (better : Int → Int → Bool) (s : Side) (o : Order) :
    ∀ ls : List PriceLevel,
      ∃ l ∈ addToLevels better s o ls, o ∈ l.orders := by
  intro ls
  induction ls with
  | nil =>
    refine ⟨PriceLevel.addOrder ⟨o.price, s, 0, 0, []⟩ o, ?_, ?_⟩ <;>
      simp [addToLevels, PriceLevel.addOrder]
  | cons l rest ih =>
    by_cases hp : l.price = o.price
    · refine ⟨l.addOrder o, ?_, ?_⟩ <;> simp [addToLevels, hp, PriceLevel.addOrder]
    · by_cases hb : better o.price l.price
      · refine ⟨PriceLevel.addOrder ⟨o.price, s, 0, 0, []⟩ o, ?_, ?_⟩ <;>
          simp [addToLevels, hp, hb, PriceLevel.addOrder]
      · rcases ih with ⟨l', hl', ho'⟩
        exact ⟨l', by simp [addToLevels, hp, hb, hl'], ho'⟩

end Helpers

/-- C1, counterexample: `addOrder` performs no matching.  Adding a bid
at 100 to an empty book and then an ask at 90 succeeds and returns with
both sides non-empty and `best_bid = 100 ≥ 90 = best_ask`: the book is
left crossed when `addOrder` returns. -/
theorem C1_counterexample_addOrder_leaves_crossed :
    ((emptyBook.addOrder oBid1).1.addOrder oAsk2).2 = true ∧
    crossedBook.bid_levels ≠ [] ∧ crossedBook.ask_levels ≠ [] ∧
    ¬ crossedBook.getBestBid < crossedBook.getBestAsk := by
  refine ⟨by decide, by decide, by decide, by decide⟩

/-- After `matchLoop` returns, one of the two sides is empty or the
best (first) bid level's price is strictly below the best ask level's
price. -/
theorem matchLoop_not_crossed (bs as : List PriceLevel) :
    (matchLoop bs as).2.1 = [] ∨ (matchLoop bs as).2.2 = [] ∨
    ∀ x ∈ (matchLoop bs as).2.1.head?, ∀ y ∈ (matchLoop bs as).2.2.head?,
      x.price < y.price := by
  induction bs, as using matchLoop.induct with
  | case1 as => simp [matchLoop]
  | case2 b bs => simp [matchLoop]
  | case3 bl brest al arest h =>
    right; right
    simp [matchLoop, h]
  | case4 bl brest al arest h r bl' al' bs' as' ih =>
    rw [matchLoop, if_neg h]
    exact ih

/-- C1, amended: `OrderBook::addOrder` only inserts the order — it
never matches, and the book may be crossed when it returns (see the
counterexample).  Crossing is resolved by the separate public call
`OrderBook::matchOrders`, which returns only when the book is no
longer crossed: afterwards one side is empty or
`best_bid < best_ask`. -/
theorem C1_matchOrders_uncrosses (b : OrderBook) :
    b.matchOrders.2.bid_levels = [] ∨ b.matchOrders.2.ask_levels = [] ∨
    b.matchOrders.2.getBestBid < b.matchOrders.2.getBestAsk := by
  have h := matchLoop_not_crossed b.bid_levels b.ask_levels
  unfold OrderBook.matchOrders
  rcases h with h | h | h
  · left; exact h
  · right; left; exact h
  · rcases hb : (matchLoop b.bid_levels b.ask_levels).2.1 with _ | ⟨bl, brest⟩
    · left; simp [hb]
    · rcases ha : (matchLoop b.bid_levels b.ask_levels).2.2 with _ | ⟨al, arest⟩
      · right; left; simp [ha]
      · right; right
        have := h bl (by rw [hb]; rfl) al (by rw [ha]; rfl)
        simpa [OrderBook.getBestBid, OrderBook.getBestAsk, hb, ha] using this

/-- C6, counterexample: `addOrder` has no quantity validation.  Adding
a zero-quantity order (fresh id) to the empty book returns `true` (it
does not fail) and changes the book: a price level at 100 now holds the
order. -/
theorem C6_counterexample_zero_quantity_accepted :
    (emptyBook.addOrder oZero).2 = true ∧ (emptyBook.addOrder oZero).1 ≠ emptyBook ∧
    containsId (emptyBook.addOrder oZero).1 1 = true := by
  refine ⟨by decide, by decide, by decide⟩

/-- C6, amended: `OrderBook::addOrder` does not validate quantity.  A
zero-quantity order whose id is not in use is accepted — the call
returns `true` and the order rests in the book — while the only failure
case, a duplicate id, returns `false` and leaves the book unchanged. -/
theorem C6_addOrder_no_quantity_check (b : OrderBook) (o : Order)
    (hq : o.quantity = 0) :
    (containsId b o.id = true → b.addOrder o = (b, false)) ∧
    (containsId b o.id = false →
      (b.addOrder o).2 = true ∧ containsId (b.addOrder o).1 o.id = true) := by
  constructor
  · intro hdup
    simp [OrderBook.addOrder, hdup]
  · intro hfresh
    unfold OrderBook.addOrder
    rw [hfresh]
    simp only [Bool.false_eq_true, if_false]
    rcases hs : o.side with _ | _
    · refine ⟨rfl, containsId_eq_true ?_⟩
      rcases mem_addToLevels (fun p q => q < p) Side.BID o b.bid_levels with ⟨l, hl, ho⟩
      refine ⟨o, ?_, rfl⟩
      simp only [ordersOf, bidOrdersOf, askOrdersOf, List.mem_append, List.mem_flatten]
      exact Or.inl ⟨l.orders, List.mem_map_of_mem PriceLevel.orders hl, ho⟩
    · refine ⟨rfl, containsId_eq_true ?_⟩
      rcases mem_addToLevels (fun p q => p < q) Side.ASK o b.ask_levels with ⟨l, hl, ho⟩
      refine ⟨o, ?_, rfl⟩
      simp only [ordersOf, bidOrdersOf, askOrdersOf, List.mem_append, List.mem_flatten]
      exact Or.inr ⟨l.orders, List.mem_map_of_mem PriceLevel.orders hl, ho⟩

/-- C6, witness for the amended theorem at a concrete input: the empty
book does not contain id 1, and adding the zero-quantity order succeeds
and leaves it resting. -/
theorem C6_witness :
    (emptyBook.addOrder oZero).2 = true ∧ containsId (emptyBook.addOrder oZero).1 oZero.id = true :=
  (C6_addOrder_no_quantity_check emptyBook oZero (by decide)).2 (by decide)

/-- C7, counterexample: modifying a resting order down to zero
remaining is not treated as a cancel.  On a book with one resting bid
(id 1), `modifyOrder 1 0` returns `true` but the order still rests: it
is still found in the book, sitting in its level's queue with
`remaining_quantity = 0`. -/
theorem C7_counterexample_modify_to_zero_rests :
    (oneBidBook.modifyOrder 1 0).2 = true ∧
    containsId (oneBidBook.modifyOrder 1 0).1 1 = true ∧
    (oneBidBook.modifyOrder 1 0).1.bid_levels =
      [⟨100, Side.BID, 0, 1, [⟨1, 100, 10, 0, Side.BID, 1⟩]⟩] := by
  refine ⟨by decide, by decide, by decide⟩

/-- C9, code bug: `Signals::queue_position` reads
`get_bid_levels(1000).front()` — the *best* level — where its own
comment says "Get level at price".  On a book with one order at the
best bid 100 and two orders at 99, a hypothetical buy at 99 gets
queue position 2 (best level's single order + 1), while the claimed
semantics (orders at the 99 level + 1) gives 3. -/
theorem C9_queue_position_uses_best_level :
    lobq.queue_position lobq.c9Book lobq.Side.Buy 99 = some 2 ∧
    lobq.claimQueuePosition lobq.c9Book lobq.Side.Buy 99 = 3 := by
  refine ⟨by decide, by decide⟩

/-- C8, code bug: on an unrecognized CSV line the data source does
yield a `MARKET_DATA` event with no `market_update` payload (first two
conjuncts, as the claim says), but `Backtester::processMarketData` is
not a no-op on such an event: it unconditionally dereferences
`*event.market_update` and switches on the result, which is undefined
behaviour on the disengaged optional (modelled as `none`); before the
faulty read it has also already created a fresh book for the symbol. -/
theorem C8_unrecognized_line_engine_fault :
    (parseLine c8Line).type = EventType.MARKET_DATA ∧
    (parseLine c8Line).market_update = none ∧
    processMarketData (parseLine c8Line) c8State = none := by
  refine ⟨by decide, by decide, by decide⟩

section DecompLemmas

variable {id : Nat} {o : Order} {Q1 Q2 : List Order}

/-- `findOrder` returns the marked order of a queue decomposition. -/
theorem findOrder_decomp (hid : o.id = id) (hQ1 : ∀ x ∈ Q1, x.id ≠ id) :
    findOrder id (Q1 ++ o :: Q2) = some o := by
  induction Q1 with
  | nil => simp [findOrder, hid]
  | cons x rest ih =>
    have hx : x.id ≠ id := hQ1 x (by simp)
    simp only [List.cons_append, findOrder, if_neg hx]
    exact ih (fun y hy => hQ1 y (by simp [hy]))

/-- `findOrder` misses a queue without the id. -/
theorem findOrder_none {os : List Order} (h : ∀ x ∈ os, x.id ≠ id) :
    findOrder id os = none := by
  induction os with
  | nil => rfl
  | cons x rest ih =>
    simp only [findOrder, if_neg (h x (by simp))]
    exact ih (fun y hy => h y (by simp [hy]))

/-- `replaceFirst` rewrites the marked order of a decomposition. -/
theorem replaceFirst_decomp (f : Order → Order) (hid : o.id = id)
    (hQ1 : ∀ x ∈ Q1, x.id ≠ id) :
    replaceFirst id f (Q1 ++ o :: Q2) = Q1 ++ f o :: Q2 := by
  induction Q1 with
  | nil => simp [replaceFirst, hid]
  | cons x rest ih =>
    have hx : x.id ≠ id := hQ1 x (by simp)
    simp only [List.cons_append, replaceFirst, if_neg hx, List.cons.injEq, true_and]
    exact ih (fun y hy => hQ1 y (by simp [hy]))

/-- `removeFirst` unlinks the marked order of a decomposition. -/
theorem removeFirst_decomp (hid : o.id = id) (hQ1 : ∀ x ∈ Q1, x.id ≠ id) :
    removeFirst id (Q1 ++ o :: Q2) = (Q1 ++ Q2, some o) := by
  induction Q1 with
  | nil => simp [removeFirst, hid]
  | cons x rest ih =>
    have hx : x.id ≠ id := hQ1 x (by simp)
    simp only [List.cons_append, removeFirst, if_neg hx, List.append_eq]
    rw [ih (fun y hy => hQ1 y (by simp [hy]))]

/-- `PriceLevel::modifyOrder` on a decomposed queue: in-place rewrite
of the marked order, aggregate adjusted by the delta. -/
theorem level_modifyOrder_decomp {lvl : PriceLevel} {q : Nat}
    (hid : o.id = id) (hQ : lvl.orders = Q1 ++ o :: Q2) (hQ1 : ∀ x ∈ Q1, x.id ≠ id) :
    lvl.modifyOrder id q =
      { lvl with
        orders := Q1 ++ { o with remaining_quantity := q, quantity := max o.quantity q } :: Q2
        total_quantity := lvl.total_quantity + q - o.remaining_quantity } := by
  unfold PriceLevel.modifyOrder
  rw [hQ, findOrder_decomp hid hQ1, replaceFirst_decomp _ hid hQ1]

/-- `PriceLevel::removeOrder` on a decomposed queue. -/
theorem level_removeOrder_decomp {lvl : PriceLevel}
    (hid : o.id = id) (hQ : lvl.orders = Q1 ++ o :: Q2) (hQ1 : ∀ x ∈ Q1, x.id ≠ id) :
    lvl.removeOrder id =
      { lvl with
        orders := Q1 ++ Q2
        total_quantity := lvl.total_quantity - o.remaining_quantity
        order_count := lvl.order_count - 1 } := by
  unfold PriceLevel.removeOrder
  rw [hQ, removeFirst_decomp hid hQ1]

/-- `modifyInLevels` misses a prefix of levels without the id and hits
the level holding it. -/
theorem modifyInLevels_decomp {q : Nat} {pre post : List PriceLevel} {lvl : PriceLevel}
    (hfind : findOrder id lvl.orders = some o)
    (hpre : ∀ l ∈ pre, ∀ x ∈ l.orders, x.id ≠ id) :
    modifyInLevels id q (pre ++ lvl :: post) =
      some (pre ++ modifyLevel lvl o q :: post) := by
  induction pre with
  | nil => simp [modifyInLevels, hfind]
  | cons l rest ih =>
    have hl : findOrder id l.orders = none := findOrder_none (hpre l (by simp))
    simp only [List.cons_append, modifyInLevels, hl, List.append_eq]
    rw [ih (fun l' hl' => hpre l' (by simp [hl']))]

/-- `modifyInLevels` returns `none` on a side without the id. -/
theorem modifyInLevels_none {q : Nat} {ls : List PriceLevel}
    (h : ∀ l ∈ ls, ∀ x ∈ l.orders, x.id ≠ id) :
    modifyInLevels id q ls = none := by
  induction ls with
  | nil => rfl
  | cons l rest ih =>
    have hl : findOrder id l.orders = none := findOrder_none (h l (by simp))
    simp only [modifyInLevels, hl]
    rw [ih (fun l' hl' => h l' (by simp [hl']))]

end DecompLemmas

/-- C7, amended: a modify that shrinks a resting order to zero
remaining is *not* a cancel.  It takes the reduce-in-place branch: the
order keeps its exact position in its level's FIFO queue with
`remaining_quantity = 0`, the level's `total_quantity` drops by the
whole previous remaining, and the order is still present in the book
(id map and level) when `modifyOrder` returns `true`.  Stated for a
level on either side, decomposed as `pre ++ lvl :: post` with the order
at queue position `Q1 ++ o :: Q2`. -/
theorem C7_modify_to_zero_keeps_order (b : OrderBook) (id : Nat)
    (pre post : List PriceLevel) (lvl : PriceLevel) (Q1 Q2 : List Order) (o : Order)
    (hid : o.id = id) (hQ : lvl.orders = Q1 ++ o :: Q2) (hQ1 : ∀ x ∈ Q1, x.id ≠ id)
    (hpre : ∀ l ∈ pre, ∀ x ∈ l.orders, x.id ≠ id) :
    (b.bid_levels = pre ++ lvl :: post →
      b.modifyOrder id 0 =
        ({ b with bid_levels := pre ++
            { lvl with orders := Q1 ++ { o with remaining_quantity := 0 } :: Q2,
                       total_quantity := lvl.total_quantity - o.remaining_quantity } :: post },
          true) ∧
      containsId (b.modifyOrder id 0).1 id = true) ∧
    (b.ask_levels = pre ++ lvl :: post →
      (∀ l ∈ b.bid_levels, ∀ x ∈ l.orders, x.id ≠ id) →
      b.modifyOrder id 0 =
        ({ b with ask_levels := pre ++
            { lvl with orders := Q1 ++ { o with remaining_quantity := 0 } :: Q2,
                       total_quantity := lvl.total_quantity - o.remaining_quantity } :: post },
          true) ∧
      containsId (b.modifyOrder id 0).1 id = true) := by
  subst hid
  have hfind : findOrder o.id lvl.orders = some o := by
    rw [hQ]; exact findOrder_decomp rfl hQ1
  have hml : modifyLevel lvl o 0 =
      { lvl with orders := Q1 ++ { o with remaining_quantity := 0 } :: Q2,
                 total_quantity := lvl.total_quantity - o.remaining_quantity } := by
    unfold modifyLevel
    rw [if_neg (by omega), level_modifyOrder_decomp rfl hQ hQ1]
    simp [Nat.max_zero]
  constructor
  · intro hbid
    have heq : b.modifyOrder o.id 0 =
        ({ b with bid_levels := pre ++
            { lvl with orders := Q1 ++ { o with remaining_quantity := 0 } :: Q2,
                       total_quantity := lvl.total_quantity - o.remaining_quantity } :: post },
          true) := by
      unfold OrderBook.modifyOrder
      rw [hbid, modifyInLevels_decomp hfind hpre, hml]
    refine ⟨heq, ?_⟩
    rw [heq]
    refine containsId_eq_true ⟨{ o with remaining_quantity := 0 }, ?_, rfl⟩
    simp only [ordersOf, bidOrdersOf, askOrdersOf, List.mem_append, List.mem_flatten]
    refine Or.inl ⟨Q1 ++ { o with remaining_quantity := 0 } :: Q2, ?_, by simp⟩
    simp [List.mem_map]
  · intro hask hbidfree
    have hnone : modifyInLevels o.id 0 b.bid_levels = none := modifyInLevels_none hbidfree
    have heq : b.modifyOrder o.id 0 =
        ({ b with ask_levels := pre ++
            { lvl with orders := Q1 ++ { o with remaining_quantity := 0 } :: Q2,
                       total_quantity := lvl.total_quantity - o.remaining_quantity } :: post },
          true) := by
      unfold OrderBook.modifyOrder
      rw [hnone, hask, modifyInLevels_decomp hfind hpre, hml]
    refine ⟨heq, ?_⟩
    rw [heq]
    refine containsId_eq_true ⟨{ o with remaining_quantity := 0 }, ?_, rfl⟩
    simp only [ordersOf, bidOrdersOf, askOrdersOf, List.mem_append, List.mem_flatten]
    refine Or.inr ⟨Q1 ++ { o with remaining_quantity := 0 } :: Q2, ?_, by simp⟩
    simp [List.mem_map]

/-- C7, witness for the amended theorem: on the one-bid book, shrink
order 1 to zero; it is still found in the book afterwards. -/
theorem C7_witness :
    oneBidBook.modifyOrder 1 0 =
      ({ oneBidBook with bid_levels :=
          [] ++ { (⟨100, Side.BID, 10, 1, [⟨1, 100, 10, 10, Side.BID, 1⟩]⟩ : PriceLevel) with
            orders := [] ++ ⟨1, 100, 10, 0, Side.BID, 1⟩ :: [],
            total_quantity := 10 - 10 } :: [] }, true) ∧
    containsId (oneBidBook.modifyOrder 1 0).1 1 = true :=
  (C7_modify_to_zero_keeps_order oneBidBook 1 [] []
      ⟨100, Side.BID, 10, 1, [⟨1, 100, 10, 10, Side.BID, 1⟩]⟩ [] []
      ⟨1, 100, 10, 10, Side.BID, 1⟩ rfl (by decide) (by simp) (by simp)).1 (by decide)

/-- C4: `OrderBook::modifyOrder` queue policy.  For a resting order
(decomposed book side `pre ++ lvl :: post`, queue `Q1 ++ o :: Q2`):
with `new_q ≤ remaining` the order is reduced in place — it keeps its
exact position between `Q1` and `Q2` and the level's `total_quantity`
moves by the delta; with `new_q > remaining` the order is unlinked and
re-appended at the tail of the level, losing its queue position (both
quantity fields rewritten to `new_q`).  The first two conjuncts route
the book-level call to the level transformation on either side. -/
theorem C4_modifyOrder_queue_policy (b : OrderBook) (id new_q : Nat)
    (pre post : List PriceLevel) (lvl : PriceLevel) (Q1 Q2 : List Order) (o : Order)
    (hid : o.id = id) (hQ : lvl.orders = Q1 ++ o :: Q2) (hQ1 : ∀ x ∈ Q1, x.id ≠ id)
    (hcnt : 1 ≤ lvl.order_count)
    (hpre : ∀ l ∈ pre, ∀ x ∈ l.orders, x.id ≠ id) :
    (b.bid_levels = pre ++ lvl :: post →
       b.modifyOrder id new_q =
         ({ b with bid_levels := pre ++ modifyLevel lvl o new_q :: post }, true)) ∧
    (b.ask_levels = pre ++ lvl :: post →
       (∀ l ∈ b.bid_levels, ∀ x ∈ l.orders, x.id ≠ id) →
       b.modifyOrder id new_q =
         ({ b with ask_levels := pre ++ modifyLevel lvl o new_q :: post }, true)) ∧
    (new_q ≤ o.remaining_quantity →
       modifyLevel lvl o new_q =
         { lvl with
           orders := Q1 ++ { o with remaining_quantity := new_q,
                                    quantity := max o.quantity new_q } :: Q2
           total_quantity := lvl.total_quantity + new_q - o.remaining_quantity }) ∧
    (o.remaining_quantity < new_q →
       modifyLevel lvl o new_q =
         { lvl with
           orders := (Q1 ++ Q2) ++ [{ o with remaining_quantity := new_q, quantity := new_q }]
           total_quantity := lvl.total_quantity - o.remaining_quantity + new_q }) := by
  subst hid
  have hfind : findOrder o.id lvl.orders = some o := by
    rw [hQ]; exact findOrder_decomp rfl hQ1
  refine ⟨?_, ?_, ?_, ?_⟩
  · intro hbid
    unfold OrderBook.modifyOrder
    rw [hbid, modifyInLevels_decomp hfind hpre]
  · intro hask hbidfree
    unfold OrderBook.modifyOrder
    rw [modifyInLevels_none hbidfree, hask, modifyInLevels_decomp hfind hpre]
  · intro hle
    unfold modifyLevel
    rw [if_neg (by omega), level_modifyOrder_decomp rfl hQ hQ1]
  · intro hlt
    unfold modifyLevel
    rw [if_pos hlt, level_removeOrder_decomp rfl hQ hQ1]
    simp only [PriceLevel.addOrder, PriceLevel.mk.injEq, and_true, true_and]
    omega

/-- C4, witness: on the two-bid book (orders 1 then 2 at price 100),
shrinking order 2 to 3 reduces it in place behind order 1. -/
theorem C4_witness :
    twoBidBook.modifyOrder 2 3 =
      ({ twoBidBook with bid_levels := [] ++ modifyLevel twoBidLevel o4b 3 :: [] }, true) ∧
    modifyLevel twoBidLevel o4b 3 =
      { twoBidLevel with
        orders := [o4a] ++ { o4b with remaining_quantity := 3,
                                      quantity := max o4b.quantity 3 } :: []
        total_quantity := twoBidLevel.total_quantity + 3 - o4b.remaining_quantity } := by
  have h := C4_modifyOrder_queue_policy twoBidBook 2 3 [] [] twoBidLevel [o4a] [] o4b
    rfl (by decide) (by decide) (by decide) (by simp)
  exact ⟨h.1 (by decide), h.2.2.1 (by decide)⟩

/-- The implementation's inner market-order loop agrees with the
claim-side queue consumption: same (passive id, fill) pairs in order,
same leftover aggressor quantity, same surviving queue. -/
theorem sweepOrders_spec (side : Side) (p : Int) (ts : Nat) (r : Nat) (os : List Order) :
    (sweepOrders side p ts r os).1.map (fun e => (passiveId side e, e.quantity)) =
      (specConsumeQueue r os).1 ∧
    (sweepOrders side p ts r os).2.1 = (specConsumeQueue r os).2.1 ∧
    (sweepOrders side p ts r os).2.2.1 = (specConsumeQueue r os).2.2 := by
  induction r, os using sweepOrders.induct side p ts with
  | case1 os =>
    cases os with
    | nil => simp [sweepOrders, specConsumeQueue]
    | cons o rest =>
      rw [sweepOrders, specConsumeQueue.eq_2 _ (by simp)]
      simp
  | case2 r => simp [sweepOrders, specConsumeQueue]
  | case3 r o rest remaining fill h ih =>
    have hfill : fill = min (r + 1) o.remaining_quantity := rfl
    have hf : min (r + 1) o.remaining_quantity = o.remaining_quantity := by omega
    rw [sweepOrders, specConsumeQueue.eq_3 _ _ _ (by omega), if_pos h, if_pos hf]
    refine ⟨?_, ih.2.1, ih.2.2⟩
    simp only [List.map_cons, ih.1]
    cases side <;> simp [passiveId]
  | case4 r o rest remaining fill h =>
    have hfill : fill = min (r + 1) o.remaining_quantity := rfl
    have hf : ¬ min (r + 1) o.remaining_quantity = o.remaining_quantity := by omega
    rw [sweepOrders, specConsumeQueue.eq_3 _ _ _ (by omega), if_neg h, if_neg hf]
    cases side <;> simp [passiveId]

/-- The implementation's level sweep agrees with the claim-side sweep
over `(price, queue)` views of the levels. -/
theorem sweepLevels_spec (side : Side) (ts : Nat) (r : Nat) (ls : List PriceLevel) :
    (sweepLevels side ts r ls).1.map (fun e => (passiveId side e, e.quantity)) =
      (specMarketSweep r (ls.map levelView)).1 ∧
    (sweepLevels side ts r ls).2.map levelView =
      (specMarketSweep r (ls.map levelView)).2 := by
  induction r, ls using sweepLevels.induct side ts with
  | case1 ls =>
    cases ls with
    | nil => simp [sweepLevels, specMarketSweep]
    | cons l rest =>
      rw [sweepLevels, specMarketSweep.eq_2 _ (by simp)]
      simp
  | case2 r => simp [sweepLevels, specMarketSweep]
  | case3 r l rest res hempty ih =>
    have hso := sweepOrders_spec side l.price ts (r + 1) l.orders
    have hqe : (specConsumeQueue (r + 1) l.orders).2.2 = [] := by
      rw [← hso.2.2]
      exact List.isEmpty_iff.mp hempty
    rw [sweepLevels, List.map_cons]
    rw [show levelView l = (l.price, l.orders) from rfl]
    rw [specMarketSweep.eq_3 _ _ _ _ (by omega), if_pos hempty, if_pos hqe]
    rw [← hso.2.1]
    refine ⟨?_, ih.2⟩
    simp only [List.map_append, hso.1, ih.1]
  | case4 r l rest res hempty =>
    have hso := sweepOrders_spec side l.price ts (r + 1) l.orders
    have hqe : ¬ (specConsumeQueue (r + 1) l.orders).2.2 = [] := by
      rw [← hso.2.2]
      simpa [List.isEmpty_iff] using hempty
    rw [sweepLevels, List.map_cons]
    rw [show levelView l = (l.price, l.orders) from rfl]
    rw [specMarketSweep.eq_3 _ _ _ _ (by omega), if_neg hempty, if_neg hqe]
    exact ⟨hso.1, by simp [levelView, hso.2.2]⟩

/-- C3: `OrderBook::processMarketOrder` consumes the opposite side
exactly as specified — best price level first, oldest order first
within a level, fill `min(remaining aggressor, front's remaining)`,
fully filled passives removed (they also leave the book's order map,
which the model derives from the level queues), emptied levels erased —
and the unfilled remainder rests nothing: the aggressor's own side is
returned untouched.  The implementation's executions and surviving
opposite side coincide with the claim-side `specMarketSweep`. -/
theorem C3_processMarketOrder_agrees_with_spec
    (b : OrderBook) (side : Side) (quantity timestamp : Nat) :
    ((b.processMarketOrder side quantity timestamp).1.map
        (fun e => (passiveId side e, e.quantity)) =
      (specMarketSweep quantity
        ((match side with
          | Side.BID => b.ask_levels
          | Side.ASK => b.bid_levels).map levelView)).1) ∧
    ((match side with
      | Side.BID => (b.processMarketOrder side quantity timestamp).2.ask_levels
      | Side.ASK => (b.processMarketOrder side quantity timestamp).2.bid_levels).map levelView =
      (specMarketSweep quantity
        ((match side with
          | Side.BID => b.ask_levels
          | Side.ASK => b.bid_levels).map levelView)).2) ∧
    (match side with
     | Side.BID => (b.processMarketOrder side quantity timestamp).2.bid_levels = b.bid_levels
     | Side.ASK => (b.processMarketOrder side quantity timestamp).2.ask_levels = b.ask_levels) := by
  cases side with
  | BID =>
    have h := sweepLevels_spec Side.BID timestamp quantity b.ask_levels
    exact ⟨h.1, h.2, rfl⟩
  | ASK =>
    have h := sweepLevels_spec Side.ASK timestamp quantity b.bid_levels
    exact ⟨h.1, h.2, rfl⟩

section LevelConsistency

/-- Orders found by `findOrder` are in the queue. -/
theorem findOrder_mem {id : Nat} :
    ∀ {os : List Order} {o : Order}, findOrder id os = some o → o ∈ os := by
  intro os
  induction os with
  | nil => intro o h; simp [findOrder] at h
  | cons x rest ih =>
    intro o h
    rw [findOrder] at h
    by_cases hx : x.id = id
    · rw [if_pos hx] at h
      obtain rfl := Option.some.inj h
      exact List.mem_cons_self x rest
    · rw [if_neg hx] at h
      exact List.mem_cons_of_mem _ (ih h)

/-- A member's remaining quantity is at most the queue's sum. -/
theorem mem_le_sum :
    ∀ {os : List Order} {o : Order}, o ∈ os →
      o.remaining_quantity ≤ (os.map Order.remaining_quantity).sum := by
  intro os
  induction os with
  | nil => intro o h; simp at h
  | cons x rest ih =>
    intro o h
    rw [List.mem_cons] at h
    rcases h with rfl | h
    · simp
    · simp only [List.map_cons, List.sum_cons]
      exact (ih h).trans (Nat.le_add_left _ _)

/-- Successful `removeFirst`: the sums and lengths decompose. -/
theorem removeFirst_facts {id : Nat} :
    ∀ {os os' : List Order} {o : Order}, removeFirst id os = (os', some o) →
      (os'.map Order.remaining_quantity).sum + o.remaining_quantity =
        (os.map Order.remaining_quantity).sum ∧
      os'.length + 1 = os.length := by
  intro os
  induction os with
  | nil => intro os' o h; simp [removeFirst] at h
  | cons x rest ih =>
    intro os' o h
    by_cases hx : x.id = id
    · simp only [removeFirst, if_pos hx] at h
      injection h with h1 h2
      injection h2 with h3
      subst h1
      subst h3
      simp only [List.map_cons, List.sum_cons, List.length_cons, and_true, true_and]
      omega
    · simp only [removeFirst, if_neg hx] at h
      rcases hr : removeFirst id rest with ⟨rest', opt⟩
      rw [hr] at h
      injection h with h1 h2
      subst h2
      subst h1
      have := ih hr
      simp only [List.map_cons, List.sum_cons, List.length_cons, and_true, true_and]
      omega

/-- `PriceLevel::removeOrder` preserves level consistency. -/
theorem removeOrder_ok {l : PriceLevel} {id : Nat} (h : LevelOK l) :
    LevelOK (l.removeOrder id) := by
  unfold PriceLevel.removeOrder
  rcases hr : removeFirst id l.orders with ⟨os', opt⟩
  cases opt with
  | none => exact h
  | some o =>
    have hf := removeFirst_facts hr
    rcases h with ⟨ht, hc⟩
    constructor
    · show l.total_quantity - o.remaining_quantity = (os'.map Order.remaining_quantity).sum
      omega
    · show l.order_count - 1 = os'.length
      omega

/-- `replaceFirst` of a found order: sums and lengths. -/
theorem replaceFirst_facts {id : Nat} (f : Order → Order) :
    ∀ {os : List Order} {o : Order}, findOrder id os = some o →
      ((replaceFirst id f os).map Order.remaining_quantity).sum + o.remaining_quantity =
        (os.map Order.remaining_quantity).sum + (f o).remaining_quantity ∧
      (replaceFirst id f os).length = os.length := by
  intro os
  induction os with
  | nil => intro o h; simp [findOrder] at h
  | cons x rest ih =>
    intro o h
    by_cases hx : x.id = id
    · simp only [findOrder, if_pos hx] at h
      obtain rfl := Option.some.inj h
      simp only [replaceFirst, if_pos hx, List.map_cons, List.sum_cons, List.length_cons,
        and_true, true_and]
      omega
    · simp only [findOrder, if_neg hx] at h
      have := ih h
      simp only [replaceFirst, if_neg hx, List.map_cons, List.sum_cons, List.length_cons,
        and_true, true_and]
      omega

/-- `PriceLevel::modifyOrder` preserves level consistency. -/
theorem level_modifyOrder_ok {l : PriceLevel} {id q : Nat} (h : LevelOK l) :
    LevelOK (l.modifyOrder id q) := by
  unfold PriceLevel.modifyOrder
  rcases hf : findOrder id l.orders with _ | o
  · exact h
  · have hr := replaceFirst_facts
      (fun x => { x with remaining_quantity := q, quantity := max x.quantity q }) hf
    have hmem : o.remaining_quantity ≤ (l.orders.map Order.remaining_quantity).sum :=
      mem_le_sum (findOrder_mem hf)
    rcases h with ⟨ht, hc⟩
    constructor
    · simp only at hr ⊢
      omega
    · simp only at hr ⊢
      omega

/-- `PriceLevel::addOrder` preserves level consistency. -/
theorem level_addOrder_ok {l : PriceLevel} {o : Order} (h : LevelOK l) :
    LevelOK (l.addOrder o) := by
  rcases h with ⟨ht, hc⟩
  constructor
  · simp [PriceLevel.addOrder, ht]
  · simp [PriceLevel.addOrder, hc]

/-- `modifyLevel` (either branch of `OrderBook::modifyOrder`) preserves
level consistency. -/
theorem modifyLevel_ok {l : PriceLevel} {o : Order} {q : Nat} (h : LevelOK l) :
    LevelOK (modifyLevel l o q) := by
  unfold modifyLevel
  split
  · exact level_addOrder_ok (removeOrder_ok h)
  · exact level_modifyOrder_ok h

/-- `addToLevels` preserves consistency of every level. -/
theorem addToLevels_ok (better : Int → Int → Bool) (s : Side) (o : Order) :
    ∀ {ls : List PriceLevel}, (∀ l ∈ ls, LevelOK l) →
      ∀ l ∈ addToLevels better s o ls, LevelOK l := by
  intro ls
  induction ls with
  | nil =>
    intro _ l hl
    simp only [addToLevels, List.mem_singleton] at hl
    subst hl
    exact level_addOrder_ok (by constructor <;> simp)
  | cons x rest ih =>
    intro h l hl
    by_cases hp : x.price = o.price
    · simp only [addToLevels, if_pos hp, List.mem_cons] at hl
      rcases hl with rfl | hl
      · exact level_addOrder_ok (h x (by simp))
      · exact h l (by simp [hl])
    · by_cases hb : better o.price x.price
      · simp only [addToLevels, if_neg hp, if_pos hb, List.mem_cons] at hl
        rcases hl with rfl | hl
        · exact level_addOrder_ok (by constructor <;> simp)
        · exact h l (by simpa using hl)
      · simp only [addToLevels, if_neg hp, if_neg hb, List.mem_cons] at hl
        rcases hl with rfl | hl
        · exact h l (by simp)
        · exact ih (fun y hy => h y (by simp [hy])) l hl

/-- `modifyInLevels` preserves consistency of every level. -/
theorem modifyInLevels_ok {id q : Nat} :
    ∀ {ls ls' : List PriceLevel}, (∀ l ∈ ls, LevelOK l) →
      modifyInLevels id q ls = some ls' → ∀ l ∈ ls', LevelOK l := by
  intro ls
  induction ls with
  | nil => intro ls' _ h; simp [modifyInLevels] at h
  | cons x rest ih =>
    intro ls' hok h
    rcases hf : findOrder id x.orders with _ | o
    · simp only [modifyInLevels, hf] at h
      rcases hm : modifyInLevels id q rest with _ | rest'
      · simp [hm] at h
      · simp only [hm] at h
        obtain rfl := Option.some.inj h
        intro l hl
        rw [List.mem_cons] at hl
        rcases hl with rfl | hl
        · exact hok l (by simp)
        · exact ih (fun y hy => hok y (by simp [hy])) hm l hl
    · simp only [modifyInLevels, hf] at h
      obtain rfl := Option.some.inj h
      intro l hl
      rw [List.mem_cons] at hl
      rcases hl with rfl | hl
      · exact modifyLevel_ok (hok x (by simp))
      · exact hok l (by simp [hl])

/-- `cancelInLevels` preserves consistency of every level. -/
theorem cancelInLevels_ok {id : Nat} :
    ∀ {ls ls' : List PriceLevel}, (∀ l ∈ ls, LevelOK l) →
      cancelInLevels id ls = some ls' → ∀ l ∈ ls', LevelOK l := by
  intro ls
  induction ls with
  | nil => intro ls' _ h; simp [cancelInLevels] at h
  | cons x rest ih =>
    intro ls' hok h
    rcases hf : findOrder id x.orders with _ | o
    · simp only [cancelInLevels, hf] at h
      rcases hm : cancelInLevels id rest with _ | rest'
      · simp [hm] at h
      · simp only [hm] at h
        obtain rfl := Option.some.inj h
        intro l hl
        rw [List.mem_cons] at hl
        rcases hl with rfl | hl
        · exact hok l (by simp)
        · exact ih (fun y hy => hok y (by simp [hy])) hm l hl
    · simp only [cancelInLevels, hf] at h
      obtain rfl := Option.some.inj h
      intro l hl
      split at hl
      · exact hok l (by simp [hl])
      · rw [List.mem_cons] at hl
        rcases hl with rfl | hl
        · exact removeOrder_ok (hok x (by simp))
        · exact hok l (by simp [hl])

end LevelConsistency

section SweepFacts

/-- Sum of executed quantities of an empty list. -/
theorem execSum_nil : execSum [] = 0 := rfl

/-- Sum of executed quantities splits off the head. -/
theorem execSum_cons (e : Execution) (es : List Execution) :
    execSum (e :: es) = e.quantity + execSum es := by
  simp [execSum]

/-- Conservation through the inner market-order loop: the surviving
queue's remaining plus the filled quantity equals the original queue's
remaining, and the surviving length plus removals equals the original
length. -/
theorem sweepOrders_facts (side : Side) (p : Int) (ts : Nat) :
    ∀ (os : List Order) (r : Nat),
      ((sweepOrders side p ts r os).2.2.1.map Order.remaining_quantity).sum
          + (sweepOrders side p ts r os).2.2.2.1 =
        (os.map Order.remaining_quantity).sum ∧
      (sweepOrders side p ts r os).2.2.1.length + (sweepOrders side p ts r os).2.2.2.2 =
        os.length := by
  intro os
  induction os with
  | nil => intro r; cases r <;> simp [sweepOrders]
  | cons o rest ih =>
    intro r
    cases r with
    | zero => simp [sweepOrders]
    | succ n =>
      rw [sweepOrders]
      by_cases hc : o.remaining_quantity - min (n + 1) o.remaining_quantity = 0
      · simp only [if_pos hc, List.map_cons, List.sum_cons, List.length_cons,
          and_true, true_and]
        obtain ⟨ih1, ih2⟩ := ih (n + 1 - min (n + 1) o.remaining_quantity)
        omega
      · simp only [if_neg hc, List.map_cons, List.sum_cons, List.length_cons,
          and_true, true_and]
        omega

/-- The level sweep of `processMarketOrder` preserves consistency of
every surviving level. -/
theorem sweepLevels_ok (side : Side) (ts : Nat) :
    ∀ (r : Nat) (ls : List PriceLevel), (∀ l ∈ ls, LevelOK l) →
      ∀ l ∈ (sweepLevels side ts r ls).2, LevelOK l := by
  intro r ls
  induction r, ls using sweepLevels.induct side ts with
  | case1 ls => intro hok; simpa [sweepLevels] using hok
  | case2 r => simp [sweepLevels]
  | case3 r l rest res hempty ih =>
    intro hok
    rw [sweepLevels]
    simp only [hempty, if_pos rfl]
    exact fun l' hl' => ih (fun y hy => hok y (by simp [hy])) l' (by simpa using hl')
  | case4 r l rest res hempty =>
    intro hok
    have hempty' : ¬ (sweepOrders side l.price ts (r + 1) l.orders).2.2.1.isEmpty = true :=
      hempty
    rw [sweepLevels]
    simp only [if_neg hempty']
    intro l' hl'
    rw [List.mem_cons] at hl'
    rcases hl' with rfl | hl'
    · have hf := sweepOrders_facts side l.price ts l.orders (r + 1)
      have hlok := hok l (by simp)
      rcases hlok with ⟨ht, hc⟩
      constructor
      · show l.total_quantity - (sweepOrders side l.price ts (r + 1) l.orders).2.2.2.1 =
          ((sweepOrders side l.price ts (r + 1) l.orders).2.2.1.map
            Order.remaining_quantity).sum
        omega
      · show l.order_count - (sweepOrders side l.price ts (r + 1) l.orders).2.2.2.2 =
          (sweepOrders side l.price ts (r + 1) l.orders).2.2.1.length
        omega
    · exact hok l' (by simp [hl'])

/-- Conservation through the inner crossing-match loop, on both
queues. -/
theorem matchQueues_facts : ∀ (bs as : List Order),
    (((matchQueues bs as).2.1.map Order.remaining_quantity).sum + execSum (matchQueues bs as).1 =
        (bs.map Order.remaining_quantity).sum ∧
      (matchQueues bs as).2.1.length ≤ bs.length) ∧
    (((matchQueues bs as).2.2.map Order.remaining_quantity).sum + execSum (matchQueues bs as).1 =
        (as.map Order.remaining_quantity).sum ∧
      (matchQueues bs as).2.2.length ≤ as.length) := by
  intro bs as
  induction bs, as using matchQueues.induct with
  | case1 as => simp [matchQueues, execSum]
  | case2 b bs => simp [matchQueues, execSum]
  | case3 bo brest ao arest q hb ha ih =>
    have hq : q = min bo.remaining_quantity ao.remaining_quantity := rfl
    simp only [matchQueues, hb, ha, dite_true, dite_false, execSum_cons,
      List.map_cons, List.sum_cons, List.length_cons]
    obtain ⟨⟨ihb1, ihb2⟩, ⟨iha1, iha2⟩⟩ := ih
    refine ⟨⟨?_, ?_⟩, ⟨?_, ?_⟩⟩ <;> omega
  | case4 bo brest ao arest q hb ha ih =>
    have hq : q = min bo.remaining_quantity ao.remaining_quantity := rfl
    rw [hq] at ih hb ha
    simp only [matchQueues, hb, ha, dite_true, dite_false, execSum_cons,
      List.map_cons, List.sum_cons, List.length_cons] at ih ⊢
    obtain ⟨⟨ihb1, ihb2⟩, ⟨iha1, iha2⟩⟩ := ih
    refine ⟨⟨?_, ?_⟩, ⟨?_, ?_⟩⟩ <;> omega
  | case5 bo brest ao arest q hb ha ih =>
    have hq : q = min bo.remaining_quantity ao.remaining_quantity := rfl
    rw [hq] at ih hb ha
    simp only [matchQueues, hb, ha, dite_true, dite_false, execSum_cons,
      List.map_cons, List.sum_cons, List.length_cons] at ih ⊢
    obtain ⟨⟨ihb1, ihb2⟩, ⟨iha1, iha2⟩⟩ := ih
    refine ⟨⟨?_, ?_⟩, ⟨?_, ?_⟩⟩ <;> omega
  | case6 bo brest ao arest q hb ha =>
    exfalso
    have hq : q = min bo.remaining_quantity ao.remaining_quantity := rfl
    omega

/-- The crossing-match loop preserves consistency of every surviving
level on both sides. -/
theorem matchLoop_ok : ∀ (bs as : List PriceLevel),
    (∀ l ∈ bs, LevelOK l) → (∀ l ∈ as, LevelOK l) →
    (∀ l ∈ (matchLoop bs as).2.1, LevelOK l) ∧ (∀ l ∈ (matchLoop bs as).2.2, LevelOK l) := by
  intro bs as
  induction bs, as using matchLoop.induct with
  | case1 as =>
    intro _ hok
    simp only [matchLoop]
    exact ⟨by simp, hok⟩
  | case2 b bs =>
    intro hok _
    simp only [matchLoop]
    exact ⟨hok, by simp⟩
  | case3 bl brest al arest h =>
    intro hbok haok
    simp only [matchLoop, if_pos h]
    exact ⟨hbok, haok⟩
  | case4 bl brest al arest h r bl' al' bs' as' ih =>
    intro hbok haok
    rw [matchLoop, if_neg h]
    have hmf := matchQueues_facts bl.orders al.orders
    have hblok := hbok bl (by simp)
    have halok := haok al (by simp)
    have hbl' : LevelOK bl' := by
      rcases hblok with ⟨ht, hc⟩
      obtain ⟨⟨h1, h2⟩, _⟩ := hmf
      constructor
      · show bl.total_quantity - execSum (matchQueues bl.orders al.orders).1 =
          ((matchQueues bl.orders al.orders).2.1.map Order.remaining_quantity).sum
        omega
      · show bl.order_count -
            (bl.orders.length - (matchQueues bl.orders al.orders).2.1.length) =
          (matchQueues bl.orders al.orders).2.1.length
        omega
    have hal' : LevelOK al' := by
      rcases halok with ⟨ht, hc⟩
      obtain ⟨_, ⟨h1, h2⟩⟩ := hmf
      constructor
      · show al.total_quantity - execSum (matchQueues bl.orders al.orders).1 =
          ((matchQueues bl.orders al.orders).2.2.map Order.remaining_quantity).sum
        omega
      · show al.order_count -
            (al.orders.length - (matchQueues bl.orders al.orders).2.2.length) =
          (matchQueues bl.orders al.orders).2.2.length
        omega
    refine ih ?_ ?_
    · intro l hl
      have hcase : l ∈ brest ∨ l = bl' := by
        by_cases hbe : bl'.orders.isEmpty = true
        · have hbs : bs' = brest := dif_pos hbe
          rw [hbs] at hl
          exact Or.inl hl
        · have hbs : bs' = bl' :: brest := dif_neg hbe
          rw [hbs, List.mem_cons] at hl
          tauto
      rcases hcase with hl' | rfl
      · exact hbok l (by simp [hl'])
      · exact hbl'
    · intro l hl
      have hcase : l ∈ arest ∨ l = al' := by
        by_cases hae : al'.orders.isEmpty = true
        · have has : as' = arest := dif_pos hae
          rw [has] at hl
          exact Or.inl hl
        · have has : as' = al' :: arest := dif_neg hae
          rw [has, List.mem_cons] at hl
          tauto
      rcases hcase with hl' | rfl
      · exact haok l (by simp [hl'])
      · exact hal'

end SweepFacts

section BookOps

/-- `addOrder` preserves book-wide level consistency. -/
theorem addOrder_book_ok {b : OrderBook} {o : Order} (h : BookOK b) :
    BookOK (b.addOrder o).1 := by
  unfold OrderBook.addOrder
  split
  · exact h
  · rcases h with ⟨hb, ha⟩
    cases o.side
    · exact ⟨addToLevels_ok _ _ _ hb, ha⟩
    · exact ⟨hb, addToLevels_ok _ _ _ ha⟩

/-- `modifyOrder` preserves book-wide level consistency. -/
theorem modifyOrder_book_ok {b : OrderBook} {id q : Nat} (h : BookOK b) :
    BookOK (b.modifyOrder id q).1 := by
  unfold OrderBook.modifyOrder
  rcases h with ⟨hb, ha⟩
  rcases hm : modifyInLevels id q b.bid_levels with _ | bl
  · rcases hm2 : modifyInLevels id q b.ask_levels with _ | al
    · exact ⟨hb, ha⟩
    · exact ⟨hb, modifyInLevels_ok ha hm2⟩
  · exact ⟨modifyInLevels_ok hb hm, ha⟩

/-- `cancelOrder` preserves book-wide level consistency. -/
theorem cancelOrder_book_ok {b : OrderBook} {id : Nat} (h : BookOK b) :
    BookOK (b.cancelOrder id).1 := by
  unfold OrderBook.cancelOrder
  rcases h with ⟨hb, ha⟩
  rcases hm : cancelInLevels id b.bid_levels with _ | bl
  · rcases hm2 : cancelInLevels id b.ask_levels with _ | al
    · exact ⟨hb, ha⟩
    · exact ⟨hb, cancelInLevels_ok ha hm2⟩
  · exact ⟨cancelInLevels_ok hb hm, ha⟩

/-- `processMarketOrder` preserves book-wide level consistency. -/
theorem processMarketOrder_book_ok {b : OrderBook} {s : Side} {q ts : Nat}
    (h : BookOK b) : BookOK (b.processMarketOrder s q ts).2 := by
  unfold OrderBook.processMarketOrder
  rcases h with ⟨hb, ha⟩
  cases s
  · exact ⟨hb, sweepLevels_ok Side.BID ts q b.ask_levels ha⟩
  · exact ⟨sweepLevels_ok Side.ASK ts q b.bid_levels hb, ha⟩

/-- `matchOrders` preserves book-wide level consistency. -/
theorem matchOrders_book_ok {b : OrderBook} (h : BookOK b) :
    BookOK b.matchOrders.2 := by
  unfold OrderBook.matchOrders
  rcases h with ⟨hb, ha⟩
  exact matchLoop_ok b.bid_levels b.ask_levels hb ha

/-- Each public mutating operation preserves book-wide level
consistency. -/
theorem applyOp_ok {b : OrderBook} (op : BookOp) (h : BookOK b) :
    BookOK (applyOp b op) := by
  cases op with
  | add o => exact addOrder_book_ok h
  | modify id q => exact modifyOrder_book_ok h
  | cancel id => exact cancelOrder_book_ok h
  | market s q ts => exact processMarketOrder_book_ok h
  | matched => exact matchOrders_book_ok h

end BookOps

/-- C5: after any sequence of public operations starting from the empty
book (`addOrder`, `modifyOrder`, `cancelOrder`, `processMarketOrder`,
`matchOrders`), every price level on either side stores
`total_quantity` equal to the sum of the remaining quantities of the
orders in its FIFO queue, and `order_count` equal to the queue's
length. -/
theorem C5_level_consistency (ops : List BookOp) : BookOK (applyOps emptyBook ops) := by
  suffices h : ∀ (b : OrderBook), BookOK b → BookOK (applyOps b ops) by
    exact h emptyBook ⟨by simp [emptyBook], by simp [emptyBook]⟩
  induction ops with
  | nil => intro b hb; exact hb
  | cons op rest ih =>
    intro b hb
    exact ih (applyOp b op) (applyOp_ok op hb)

/-- C5, witness: the invariant evaluated after a concrete sequence
that exercises add, modify, cancel, a market order and matching. -/
theorem C5_witness :
    BookOK (applyOps emptyBook
      [BookOp.add oBid1, BookOp.add oAsk2, BookOp.modify 1 4,
       BookOp.market Side.BID 3 5, BookOp.matched, BookOp.cancel 2]) :=
  C5_level_consistency _

section MatchExecs

/-- Core-field equality is reflexive. -/
theorem sameCore_refl (x : Order) : sameCore x x := ⟨rfl, rfl, rfl⟩

/-- Core-field equality is transitive. -/
theorem sameCore_trans {x y z : Order} (h1 : sameCore x y) (h2 : sameCore y z) :
    sameCore x z :=
  ⟨h1.1.trans h2.1, h1.2.1.trans h2.2.1, h1.2.2.trans h2.2.2⟩

/-- `execFromPair` only reads core fields of the pair. -/
theorem execFromPair_congr {e : Execution} {bo ao bo' ao' : Order}
    (h : execFromPair e bo ao) (hb : sameCore bo bo') (ha : sameCore ao ao') :
    execFromPair e bo' ao' := by
  obtain ⟨h1, h2, h3, h4, h5⟩ := h
  obtain ⟨hb1, hb2, hb3⟩ := hb
  obtain ⟨ha1, ha2, ha3⟩ := ha
  refine ⟨hb1 ▸ h1, ha1 ▸ h2, ?_, ?_, by rw [← hb3, ← ha3]; exact h5⟩
  · intro hlt
    rw [← hb2]
    exact h3 (by omega)
  · intro hge
    rw [← ha2]
    exact h4 (by omega)

/-- Every execution of the inner match loop is built from a pair of
orders of the two input queues. -/
theorem matchQueues_execs : ∀ (bs as : List Order), ∀ e ∈ (matchQueues bs as).1,
    ∃ bo ∈ bs, ∃ ao ∈ as, execFromPair e bo ao := by
  intro bs as
  induction bs, as using matchQueues.induct with
  | case1 as => simp [matchQueues]
  | case2 b bs => simp [matchQueues]
  | case3 bo brest ao arest q hb ha ih =>
    have hq : q = min bo.remaining_quantity ao.remaining_quantity := rfl
    rw [hq] at hb ha
    intro e he
    simp only [matchQueues, hb, ha, dite_true, dite_false, List.mem_cons] at he
    rcases he with rfl | he
    · refine ⟨bo, by simp, ao, by simp, rfl, rfl, ?_, ?_, rfl⟩
      · intro hlt; simp [if_pos hlt]
      · intro hge; simp [if_neg hge]
    · obtain ⟨bo', hbo', ao', hao', hp⟩ := ih e he
      exact ⟨bo', by simp [hbo'], ao', by simp [hao'], hp⟩
  | case4 bo brest ao arest q hb ha ih =>
    have hq : q = min bo.remaining_quantity ao.remaining_quantity := rfl
    rw [hq] at ih hb ha
    intro e he
    simp only [matchQueues, hb, ha, dite_true, dite_false, List.mem_cons] at he
    rcases he with rfl | he
    · refine ⟨bo, by simp, ao, by simp, rfl, rfl, ?_, ?_, rfl⟩
      · intro hlt; simp [if_pos hlt]
      · intro hge; simp [if_neg hge]
    · obtain ⟨bo', hbo', ao', hao', hp⟩ := ih e he
      rw [List.mem_cons] at hao'
      rcases hao' with rfl | hao'
      · exact ⟨bo', by simp [hbo'], ao, by simp,
          execFromPair_congr hp (sameCore_refl _) ⟨rfl, rfl, rfl⟩⟩
      · exact ⟨bo', by simp [hbo'], ao', by simp [hao'], hp⟩
  | case5 bo brest ao arest q hb ha ih =>
    have hq : q = min bo.remaining_quantity ao.remaining_quantity := rfl
    rw [hq] at ih hb ha
    intro e he
    simp only [matchQueues, hb, ha, dite_true, dite_false, List.mem_cons] at he
    rcases he with rfl | he
    · refine ⟨bo, by simp, ao, by simp, rfl, rfl, ?_, ?_, rfl⟩
      · intro hlt; simp [if_pos hlt]
      · intro hge; simp [if_neg hge]
    · obtain ⟨bo', hbo', ao', hao', hp⟩ := ih e he
      rw [List.mem_cons] at hbo'
      rcases hbo' with rfl | hbo'
      · exact ⟨bo, by simp, ao', by simp [hao'],
          execFromPair_congr hp ⟨rfl, rfl, rfl⟩ (sameCore_refl _)⟩
      · exact ⟨bo', by simp [hbo'], ao', by simp [hao'], hp⟩
  | case6 bo brest ao arest q hb ha =>
    exfalso
    have hq : q = min bo.remaining_quantity ao.remaining_quantity := rfl
    omega

/-- Orders surviving the inner match loop have their core fields among
the input queues (both sides). -/
theorem matchQueues_cores : ∀ (bs as : List Order),
    (∀ x ∈ (matchQueues bs as).2.1, ∃ y ∈ bs, sameCore x y) ∧
    (∀ x ∈ (matchQueues bs as).2.2, ∃ y ∈ as, sameCore x y) := by
  intro bs as
  induction bs, as using matchQueues.induct with
  | case1 as =>
    refine ⟨by simp [matchQueues], fun x hx => ?_⟩
    simp only [matchQueues] at hx
    exact ⟨x, hx, sameCore_refl x⟩
  | case2 b bs =>
    refine ⟨fun x hx => ?_, by simp [matchQueues]⟩
    simp only [matchQueues] at hx
    exact ⟨x, hx, sameCore_refl x⟩
  | case3 bo brest ao arest q hb ha ih =>
    have hq : q = min bo.remaining_quantity ao.remaining_quantity := rfl
    rw [hq] at hb ha
    simp only [matchQueues, hb, ha, dite_true, dite_false]
    obtain ⟨ih1, ih2⟩ := ih
    constructor
    · intro x hx
      obtain ⟨y, hy, hc⟩ := ih1 x hx
      exact ⟨y, by simp [hy], hc⟩
    · intro x hx
      obtain ⟨y, hy, hc⟩ := ih2 x hx
      exact ⟨y, by simp [hy], hc⟩
  | case4 bo brest ao arest q hb ha ih =>
    have hq : q = min bo.remaining_quantity ao.remaining_quantity := rfl
    rw [hq] at ih hb ha
    simp only [matchQueues, hb, ha, dite_true, dite_false]
    obtain ⟨ih1, ih2⟩ := ih
    constructor
    · intro x hx
      obtain ⟨y, hy, hc⟩ := ih1 x hx
      exact ⟨y, by simp [hy], hc⟩
    · intro x hx
      obtain ⟨y, hy, hc⟩ := ih2 x hx
      rw [List.mem_cons] at hy
      rcases hy with rfl | hy
      · exact ⟨ao, by simp, sameCore_trans hc ⟨rfl, rfl, rfl⟩⟩
      · exact ⟨y, by simp [hy], hc⟩
  | case5 bo brest ao arest q hb ha ih =>
    have hq : q = min bo.remaining_quantity ao.remaining_quantity := rfl
    rw [hq] at ih hb ha
    simp only [matchQueues, hb, ha, dite_true, dite_false]
    obtain ⟨ih1, ih2⟩ := ih
    constructor
    · intro x hx
      obtain ⟨y, hy, hc⟩ := ih1 x hx
      rw [List.mem_cons] at hy
      rcases hy with rfl | hy
      · exact ⟨bo, by simp, sameCore_trans hc ⟨rfl, rfl, rfl⟩⟩
      · exact ⟨y, by simp [hy], hc⟩
    · intro x hx
      obtain ⟨y, hy, hc⟩ := ih2 x hx
      exact ⟨y, by simp [hy], hc⟩
  | case6 bo brest ao arest q hb ha =>
    exfalso
    have hq : q = min bo.remaining_quantity ao.remaining_quantity := rfl
    omega

end MatchExecs

section LoopExecs

/-- Keeping the tail: cores lift over a cons. -/
theorem coreInLevels_tail {x : Order} {l : PriceLevel} {ls : List PriceLevel}
    (h : coreInLevels x ls) : coreInLevels x (l :: ls) := by
  obtain ⟨l', hl', y, hy, hc⟩ := h
  exact ⟨l', by simp [hl'], y, hy, hc⟩

/-- Replacing the head level by one whose orders all have core
ancestors in the original head. -/
theorem coreInLevels_head {x : Order} {l' l : PriceLevel} {ls : List PriceLevel}
    (hsub : ∀ y ∈ l'.orders, ∃ z ∈ l.orders, sameCore y z)
    (h : coreInLevels x (l' :: ls)) : coreInLevels x (l :: ls) := by
  obtain ⟨m, hm, y, hy, hc⟩ := h
  rw [List.mem_cons] at hm
  rcases hm with rfl | hm
  · obtain ⟨z, hz, hc2⟩ := hsub y hy
    exact ⟨l, by simp, z, hz, sameCore_trans hc hc2⟩
  · exact ⟨m, by simp [hm], y, hy, hc⟩

/-- Every execution of `matchLoop` is built from a pair of orders whose
core fields come from the two input sides. -/
theorem matchLoop_execs : ∀ (bs as : List PriceLevel), ∀ e ∈ (matchLoop bs as).1,
    ∃ bo, coreInLevels bo bs ∧ ∃ ao, coreInLevels ao as ∧ execFromPair e bo ao := by
  intro bs as
  induction bs, as using matchLoop.induct with
  | case1 as => simp [matchLoop]
  | case2 b bs => simp [matchLoop]
  | case3 bl brest al arest h => simp [matchLoop, if_pos h]
  | case4 bl brest al arest h r bl' al' bs' as' ih =>
    intro e he
    rw [matchLoop, if_neg h] at he
    have he' : e ∈ (matchQueues bl.orders al.orders).1 ++ (matchLoop bs' as').1 := he
    rw [List.mem_append] at he'
    rcases he' with he' | he'
    · obtain ⟨bo, hbo, ao, hao, hp⟩ := matchQueues_execs bl.orders al.orders e he'
      exact ⟨bo, ⟨bl, by simp, bo, hbo, sameCore_refl _⟩,
        ao, ⟨al, by simp, ao, hao, sameCore_refl _⟩, hp⟩
    · obtain ⟨bo, hbo, ao, hao, hp⟩ := ih e he'
      have hmc := matchQueues_cores bl.orders al.orders
      refine ⟨bo, ?_, ao, ?_, hp⟩
      · by_cases hbe : bl'.orders.isEmpty = true
        · have hbs : bs' = brest := dif_pos hbe
          rw [hbs] at hbo
          exact coreInLevels_tail hbo
        · have hbs : bs' = bl' :: brest := dif_neg hbe
          rw [hbs] at hbo
          exact coreInLevels_head (fun y hy => hmc.1 y hy) hbo
      · by_cases hae : al'.orders.isEmpty = true
        · have has : as' = arest := dif_pos hae
          rw [has] at hao
          exact coreInLevels_tail hao
        · have has : as' = al' :: arest := dif_neg hae
          rw [has] at hao
          exact coreInLevels_head (fun y hy => hmc.2 y hy) hao

/-- Cores among levels are cores among the flattened side. -/
theorem coreInLevels_flatten {x : Order} {ls : List PriceLevel}
    (h : coreInLevels x ls) :
    ∃ y ∈ (ls.map PriceLevel.orders).flatten, sameCore x y := by
  obtain ⟨l, hl, y, hy, hc⟩ := h
  exact ⟨y, List.mem_flatten.mpr ⟨l.orders, List.mem_map_of_mem PriceLevel.orders hl, hy⟩, hc⟩

end LoopExecs

/-- C2: every execution emitted by `OrderBook::matchOrders` records the
ids of a matched bid/ask pair resting in the book before the call, has
price equal to the price of whichever of the two has the strictly
earlier timestamp (on a tie the code takes the ask's price, covered by
the non-strict second implication), and timestamp equal to the maximum
of the two orders' timestamps. -/
theorem C2_matchOrders_execution_fields (b : OrderBook) :
    ∀ e ∈ b.matchOrders.1,
      ∃ bo ∈ bidOrdersOf b, ∃ ao ∈ askOrdersOf b,
        e.bid_id = bo.id ∧ e.ask_id = ao.id ∧
        (bo.timestamp < ao.timestamp → e.price = bo.price) ∧
        (¬ bo.timestamp < ao.timestamp → e.price = ao.price) ∧
        e.timestamp = max bo.timestamp ao.timestamp := by
  intro e he
  have he' : e ∈ (matchLoop b.bid_levels b.ask_levels).1 := he
  obtain ⟨bo, hbo, ao, hao, hp⟩ := matchLoop_execs b.bid_levels b.ask_levels e he'
  obtain ⟨bo', hbo', hcb⟩ := coreInLevels_flatten hbo
  obtain ⟨ao', hao', hca⟩ := coreInLevels_flatten hao
  obtain ⟨h1, h2, h3, h4, h5⟩ := execFromPair_congr hp hcb hca
  exact ⟨bo', hbo', ao', hao', h1, h2, h3, h4, h5⟩

/-- C2, witness: on the crossed book `c2Book` (bid 10 at 100 with
timestamp 1, ask 10 at 90 with timestamp 2), `matchOrders` emits
exactly `c2Exec`, whose fields are obtained from the theorem: price 100
(the earlier bid's), timestamp 2 (the later of the two). -/
theorem C2_witness :
    ∃ bo ∈ bidOrdersOf c2Book, ∃ ao ∈ askOrdersOf c2Book,
      c2Exec.bid_id = bo.id ∧ c2Exec.ask_id = ao.id ∧
      (bo.timestamp < ao.timestamp → c2Exec.price = bo.price) ∧
      (¬ bo.timestamp < ao.timestamp → c2Exec.price = ao.price) ∧
      c2Exec.timestamp = max bo.timestamp ao.timestamp := by
  refine C2_matchOrders_execution_fields c2Book c2Exec ?_
  have h : c2Book = ⟨[⟨100, Side.BID, 10, 1, [⟨11, 100, 10, 10, Side.BID, 1⟩]⟩],
                     [⟨90, Side.ASK, 10, 1, [⟨12, 90, 10, 10, Side.ASK, 2⟩]⟩]⟩ := by decide
  have h2 : c2Book.matchOrders.1 = [c2Exec] := by
    rw [h]
    simp [OrderBook.matchOrders, matchLoop, matchQueues, execSum, c2Exec]
  rw [h2]
  exact List.mem_singleton_self _

section FillSign

/-- Executions of the inner market sweep put `0` in the aggressor's own
id field and a passive order's id (from the swept queue) in the other
field. -/
theorem sweepOrders_ids (side : Side) (p : Int) (ts : Nat) :
    ∀ (os : List Order) (r : Nat), ∀ e ∈ (sweepOrders side p ts r os).1,
      (side = Side.BID → e.bid_id = 0 ∧ ∃ o ∈ os, e.ask_id = o.id) ∧
      (side = Side.ASK → e.ask_id = 0 ∧ ∃ o ∈ os, e.bid_id = o.id) := by
  intro os
  induction os with
  | nil => intro r; cases r <;> simp [sweepOrders]
  | cons o rest ih =>
    intro r
    cases r with
    | zero => simp [sweepOrders]
    | succ n =>
      intro e he
      rw [sweepOrders] at he
      by_cases hc : o.remaining_quantity - min (n + 1) o.remaining_quantity = 0
      · simp only [if_pos hc, List.mem_cons] at he
        rcases he with rfl | he
        · constructor
          · rintro rfl
            simp
          · rintro rfl
            simp
        · obtain ⟨h1, h2⟩ := ih (n + 1 - min (n + 1) o.remaining_quantity) e he
          constructor
          · intro hs
            obtain ⟨hz, o', ho', hid⟩ := h1 hs
            exact ⟨hz, o', by simp [ho'], hid⟩
          · intro hs
            obtain ⟨hz, o', ho', hid⟩ := h2 hs
            exact ⟨hz, o', by simp [ho'], hid⟩
      · simp only [if_neg hc, List.mem_singleton] at he
        subst he
        constructor
        · rintro rfl
          simp
        · rintro rfl
          simp

/-- Lifting the id convention to the level sweep: the passive id comes
from some order resting in the swept levels. -/
theorem sweepLevels_ids (side : Side) (ts : Nat) :
    ∀ (r : Nat) (ls : List PriceLevel), ∀ e ∈ (sweepLevels side ts r ls).1,
      (side = Side.BID → e.bid_id = 0 ∧
        ∃ o ∈ (ls.map PriceLevel.orders).flatten, e.ask_id = o.id) ∧
      (side = Side.ASK → e.ask_id = 0 ∧
        ∃ o ∈ (ls.map PriceLevel.orders).flatten, e.bid_id = o.id) := by
  intro r ls
  induction r, ls using sweepLevels.induct side ts with
  | case1 ls => simp [sweepLevels]
  | case2 r => simp [sweepLevels]
  | case3 r l rest res hempty ih =>
    intro e he
    have hempty' : (sweepOrders side l.price ts (r + 1) l.orders).2.2.1.isEmpty = true :=
      hempty
    rw [sweepLevels] at he
    simp only [if_pos hempty', List.mem_append] at he
    rcases he with he | he
    · obtain ⟨h1, h2⟩ := sweepOrders_ids side l.price ts l.orders (r + 1) e he
      constructor
      · intro hs
        obtain ⟨hz, o', ho', hid⟩ := h1 hs
        refine ⟨hz, o', ?_, hid⟩
        simp only [List.map_cons, List.flatten_cons, List.mem_append]
        exact Or.inl ho'
      · intro hs
        obtain ⟨hz, o', ho', hid⟩ := h2 hs
        refine ⟨hz, o', ?_, hid⟩
        simp only [List.map_cons, List.flatten_cons, List.mem_append]
        exact Or.inl ho'
    · obtain ⟨h1, h2⟩ := ih e he
      constructor
      · intro hs
        obtain ⟨hz, o', ho', hid⟩ := h1 hs
        refine ⟨hz, o', ?_, hid⟩
        simp only [List.map_cons, List.flatten_cons, List.mem_append]
        exact Or.inr ho'
      · intro hs
        obtain ⟨hz, o', ho', hid⟩ := h2 hs
        refine ⟨hz, o', ?_, hid⟩
        simp only [List.map_cons, List.flatten_cons, List.mem_append]
        exact Or.inr ho'
  | case4 r l rest res hempty =>
    intro e he
    have hempty' : ¬ (sweepOrders side l.price ts (r + 1) l.orders).2.2.1.isEmpty = true :=
      hempty
    rw [sweepLevels] at he
    simp only [if_neg hempty'] at he
    obtain ⟨h1, h2⟩ := sweepOrders_ids side l.price ts l.orders (r + 1) e he
    constructor
    · intro hs
      obtain ⟨hz, o', ho', hid⟩ := h1 hs
      refine ⟨hz, o', ?_, hid⟩
      simp only [List.map_cons, List.flatten_cons, List.mem_append]
      exact Or.inl ho'
    · intro hs
      obtain ⟨hz, o', ho', hid⟩ := h2 hs
      refine ⟨hz, o', ?_, hid⟩
      simp only [List.map_cons, List.flatten_cons, List.mem_append]
      exact Or.inl ho'

/-- `Position::updatePosition` always moves `quantity` by exactly the
signed fill (the branches only touch `average_price`/`realized_pnl`). -/
theorem updatePosition_quantity (pos : Position) (dq : Int) (px : ℚ) :
    (pos.updatePosition dq px).quantity = pos.quantity + dq := by
  unfold Position.updatePosition
  by_cases h0 : dq = 0
  · simp [h0]
  · simp only [if_neg h0]
    split <;> (try split) <;> (try split) <;> simp

/-- `List.lookup` after `setPos` finds the stored position. -/
theorem lookup_setPos (ps : List (String × Position)) (sym : String) (p : Position) :
    (setPos ps sym p).lookup sym = some p := by
  induction ps with
  | nil => simp [setPos, List.lookup]
  | cons kv rest ih =>
    obtain ⟨s, q⟩ := kv
    by_cases hs : s = sym
    · simp [setPos, hs, List.lookup]
    · simp only [setPos, if_neg hs, List.lookup]
      have hbe : (sym == s) = false := by
        simpa [beq_iff_eq] using fun h => hs h.symm
      simp only [hbe]
      exact ih

/-- `Portfolio::updatePosition` moves the net position by the signed
fill. -/
theorem getNetPosition_update (pf : Portfolio) (sym : String) (dq : Int) (px : ℚ) :
    (pf.updatePosition sym dq px).getNetPosition sym = pf.getNetPosition sym + dq := by
  unfold Portfolio.updatePosition Portfolio.getNetPosition
  simp only [lookup_setPos, updatePosition_quantity]
  unfold Portfolio.getPos
  rcases pf.positions.lookup sym with _ | p
  · simp [Position.flat]
  · simp

/-- `Portfolio::updatePosition` cash flow: signed notional plus
commission on the absolute notional. -/
theorem cash_update (pf : Portfolio) (sym : String) (dq : Int) (px : ℚ) :
    (pf.updatePosition sym dq px).cash =
      pf.cash - ((dq : ℚ) * px + pf.commission_rate * (|(dq : ℚ)| * px)) := rfl

end FillSign

/-- C10: (a) for a Fill event carrying an execution, the portfolio's
position delta for the event's symbol is `+quantity` exactly when the
execution's `bid_id` is non-zero and `-quantity` otherwise, booked at
`priceToDouble(price)` (visible in the cash flow: signed notional plus
commission on the absolute notional at that price); (b) every execution
returned by `processMarketOrder` stores `0` in the aggressor's own id
field and a resting opposite-side order's id in the other field, so the
zero-id convention determines the booked sign of a strategy market
order's fills. -/
theorem C10_fill_sign_and_aggressor_ids :
    ∀ (e : Event) (ex : Execution) (st st' : EngineState)
      (b : OrderBook) (s : Side) (q ts : Nat),
      (e.execution = some ex → processFill e st = some st' →
        st'.portfolio.getNetPosition e.symbol =
          st.portfolio.getNetPosition e.symbol +
            (if ex.bid_id ≠ 0 then (ex.quantity : Int) else -(ex.quantity : Int)) ∧
        st'.portfolio.cash =
          st.portfolio.cash -
            ((if ex.bid_id ≠ 0 then (ex.quantity : ℚ) else -(ex.quantity : ℚ)) *
                priceToDouble ex.price +
              st.portfolio.commission_rate * ((ex.quantity : ℚ) * priceToDouble ex.price))) ∧
      (∀ e2 ∈ (b.processMarketOrder s q ts).1,
        (s = Side.BID → e2.bid_id = 0 ∧ ∃ o ∈ askOrdersOf b, e2.ask_id = o.id) ∧
        (s = Side.ASK → e2.ask_id = 0 ∧ ∃ o ∈ bidOrdersOf b, e2.bid_id = o.id)) := by
  intro e ex st st' b s q ts
  constructor
  · intro hex hpf
    simp only [processFill, hex] at hpf
    obtain rfl := Option.some.inj hpf
    constructor
    · exact getNetPosition_update st.portfolio e.symbol _ (priceToDouble ex.price)
    · rw [cash_update]
      by_cases hb : ex.bid_id = 0
      · simp only [hb, ne_eq, not_true_eq_false, if_false]
        push_cast
        rw [abs_neg, abs_of_nonneg (by positivity)]
      · simp only [ne_eq, hb, not_false_eq_true, if_true]
        push_cast
        rw [abs_of_nonneg (by positivity)]
  · intro e2 he2
    cases s with
    | BID =>
      have h := sweepLevels_ids Side.BID ts q b.ask_levels e2 he2
      exact ⟨fun _ => h.1 rfl, fun hs => absurd hs (by simp)⟩
    | ASK =>
      have h := sweepLevels_ids Side.ASK ts q b.bid_levels e2 he2
      exact ⟨fun hs => absurd hs (by simp), fun _ => h.2 rfl⟩

/-- C10, witness: the sell fill (bid_id = 0, quantity 5 at price 100)
moves the "S" position by −5, and a bid-side market order against the
one-ask book emits an execution with `bid_id = 0` and the resting ask's
id 9. -/
theorem C10_witness :
    c10After.portfolio.getNetPosition "S" =
      c10State.portfolio.getNetPosition "S" + -((5 : Nat) : Int) ∧
    (⟨0, 9, 105, 4, 7⟩ : Execution).bid_id = 0 ∧
    ∃ o ∈ askOrdersOf oneAskBook, (⟨0, 9, 105, 4, 7⟩ : Execution).ask_id = o.id := by
  have h := C10_fill_sign_and_aggressor_ids c10FillEvent ⟨0, 2, 100, 5, 7⟩
    c10State c10After oneAskBook Side.BID 4 7
  have h1 := (h.1 rfl rfl).1
  have hmem : (⟨0, 9, 105, 4, 7⟩ : Execution) ∈
      (oneAskBook.processMarketOrder Side.BID 4 7).1 := by
    have : (oneAskBook.processMarketOrder Side.BID 4 7).1 =
        [⟨0, 9, 105, 4, 7⟩] := by decide
    rw [this]
    exact List.mem_singleton_self _
  have h2 := (h.2 ⟨0, 9, 105, 4, 7⟩ hmem).1 rfl
  refine ⟨?_, h2.1, h2.2⟩
  simpa using h1
